import Mathlib

/-!
Shallow embedding of the json11 library (src/json11.hpp) in Lean 4.

The repository ships only the public header `json11.hpp`; the function
bodies (`json11.cpp`) are not part of the sources.  The header is the
authority for everything it contains: the `Json::Type` enum and its
declaration order `NUL, NUMBER, BOOL, STRING, ARRAY, OBJECT`, the set of
constructors (with the two internal numeric representations `JsonInt` and
`JsonDouble`), the inline `parse(const char *, err)` wrapper with its
"null input" error, the inline derived operators `!=, <=, >, >=`, and the
documented accessor contracts.  The bodies of `operator<`, `operator==`,
`parse(const std::string&, err)`, `dump`, `has_shape` and the typed
accessors are modelled from the specification (spec.md), which documents
them precisely; each such definition carries a `Modelled from the spec:`
note in its doc comment.

Modelling conventions:
* C++ `std::string` values (JSON texts, string payloads, object keys) are
  byte sequences, embedded as `List Nat`;
* the `double` payload of `JsonDouble` is embedded as an exact rational
  (`ℚ`).  Every finite binary double is an exact rational whose reduced
  denominator is a power of two, so the double-representable payloads are
  a subset of the model's payloads; NaN and infinities (not produced by
  parsing) are outside the model;
* C++ `int` is embedded as `Int`;
* the recursive-descent parser is total via a fuel parameter; the public
  entry point supplies `input length + 1` fuel, which exceeds the nesting
  depth of any document the input can denote.
-/

set_option maxHeartbeats 2000000
set_option maxRecDepth 4000

namespace Json11

/-- The `Json::Type` enum from the header, in its declaration order:
`NUL, NUMBER, BOOL, STRING, ARRAY, OBJECT`. -/
inductive JType where
  | NUL
  | NUMBER
  | BOOL
  | STRING
  | ARRAY
  | OBJECT
deriving DecidableEq, Repr

/-- The numeric value of each enum tag, i.e. its position in the
declaration order of `Json::Type` (a C++ enum without explicit values). -/
def tagVal : JType → Nat
  | .NUL => 0
  | .NUMBER => 1
  | .BOOL => 2
  | .STRING => 3
  | .ARRAY => 4
  | .OBJECT => 5

/-- A `json11::Json` value: the closed six-variant union, with the two
internal numeric representations of the header (`JsonInt` holding a C++
`int`, `JsonDouble` holding a `double`, both of type `NUMBER`).  String
payloads and object keys are byte sequences; objects are the entry list of
a `std::map<std::string, Json>`, i.e. key-sorted with unique keys. -/
inductive JsonV where
  | jnull
  | jint (n : Int)
  | jdouble (q : ℚ)
  | jbool (b : Bool)
  | jstring (s : List Nat)
  | jarray (items : List JsonV)
  | jobject (entries : List (List Nat × JsonV))

open JsonV

/-- `Json::type()`: the variant tag of a value.  `JsonInt` and
`JsonDouble` both report `NUMBER`. -/
def typeOf : JsonV → JType
  | jnull => .NUL
  | jint _ => .NUMBER
  | jdouble _ => .NUMBER
  | jbool _ => .BOOL
  | jstring _ => .STRING
  | jarray _ => .ARRAY
  | jobject _ => .OBJECT

/-- Truncation of a rational toward zero, the semantics of the C++
`static_cast<int>(double)` used by `JsonDouble::int_value`. -/
def ratTrunc (q : ℚ) : Int :=
  if 0 ≤ q.num then ((q.num.toNat / q.den : Nat) : Int)
  else -(((-q.num).toNat / q.den : Nat) : Int)

/-- `Json::number_value()`.  Modelled from the spec: returns the enclosed
numeric value if this is a number, `0` otherwise ("safe default"
contract from the header comment and spec section 4.1).  `JsonInt`
payloads are converted exactly, as the C++ `int` to `double` conversion
is exact on 32-bit ints. -/
def number_value : JsonV → ℚ
  | jint n => (n : ℚ)
  | jdouble q => q
  | _ => 0

/-- `Json::int_value()`.  Modelled from the spec: the enclosed value if
this is a number (truncated toward zero for a `JsonDouble` payload),
`0` otherwise. -/
def int_value : JsonV → Int
  | jint n => n
  | jdouble q => ratTrunc q
  | _ => 0

/-- `Json::bool_value()`.  Modelled from the spec: the enclosed boolean,
`false` on any other variant. -/
def bool_value : JsonV → Bool
  | jbool b => b
  | _ => false

/-- `Json::string_value()`.  Modelled from the spec: the enclosed string,
the empty string on any other variant. -/
def string_value : JsonV → List Nat
  | jstring s => s
  | _ => []

/-- `Json::array_items()`.  Modelled from the spec: the enclosed vector,
the empty vector on any other variant. -/
def array_items : JsonV → List JsonV
  | jarray xs => xs
  | _ => []

/-- `Json::object_items()`.  Modelled from the spec: the enclosed map
entries, the empty map on any other variant. -/
def object_items : JsonV → List (List Nat × JsonV)
  | jobject xs => xs
  | _ => []

/-- `Json::operator[](size_t)`.  Modelled from the spec: `arr[i]` if this
is an array and `i` is in range, the null value otherwise. -/
def getIdx : JsonV → Nat → JsonV
  | jarray xs, i => (xs.get? i).getD jnull
  | _, _ => jnull

/-- Lookup of a key in an object entry list (the `std::map::find`
semantics on the key-sorted unique-key entry list: the entry with a
byte-equal key, if any). -/
def lookupKV (k : List Nat) : List (List Nat × JsonV) → Option JsonV
  | [] => none
  | (k', v) :: rest => if k' = k then some v else lookupKV k rest

/-- `Json::operator[](const std::string &)`.  Modelled from the spec:
`obj[key]` if this is an object containing the key, the null value
otherwise. -/
def getKey : JsonV → List Nat → JsonV
  | jobject xs, k => (lookupKV k xs).getD jnull
  | _, _ => jnull

/-- Byte comparison: the `char_traits<char>::compare` order on single
bytes (unsigned). -/
def bltN (a b : Nat) : Bool := decide (a < b)

/-- `std::lexicographical_compare` over a list, parameterized by the
element order: at each position, `lt x y` decides less, `lt y x` decides
greater, otherwise the comparison continues; a proper prefix is smaller. -/
def lexLt (lt : α → α → Bool) : List α → List α → Bool
  | _, [] => false
  | [], _ :: _ => true
  | x :: xs, y :: ys =>
    if lt x y then true else if lt y x then false else lexLt lt xs ys

/-- The `std::string` order: byte-wise lexicographic comparison. -/
def bytesLt (s t : List Nat) : Bool := lexLt bltN s t

mutual
/-- `Json::operator<`.  Modelled from the spec (section 4.2): primary key
the variant tag in the fixed order of the header's enum declaration
(`NUL, NUMBER, BOOL, STRING, ARRAY, OBJECT`); secondary key, when the
tags match, the natural payload order: numeric less-than on the stored
numeric value (`JsonInt` and `JsonDouble` compare by `number_value`),
`false < true`, byte-lexicographic strings, element-lexicographic arrays
(`std::vector::operator<`) and entry-lexicographic objects
(`std::map::operator<`, over `std::pair`s of key and value). -/
def jless : JsonV → JsonV → Bool
  | jnull, jnull => false
  | jint n, jint m => decide ((n : ℚ) < (m : ℚ))
  | jint n, jdouble q => decide ((n : ℚ) < q)
  | jdouble q, jint n => decide (q < (n : ℚ))
  | jdouble p, jdouble q => decide (p < q)
  | jbool x, jbool y => !x && y
  | jstring s, jstring t => bytesLt s t
  | jarray xs, jarray ys => jlessL xs ys
  | jobject xs, jobject ys => jlessO xs ys
  | a, b => decide (tagVal (typeOf a) < tagVal (typeOf b))
termination_by a b => sizeOf a + sizeOf b

/-- `std::vector<Json>::operator<`: lexicographic element comparison. -/
def jlessL : List JsonV → List JsonV → Bool
  | _, [] => false
  | [], _ :: _ => true
  | x :: xs, y :: ys =>
    if jless x y then true else if jless y x then false else jlessL xs ys
termination_by xs ys => sizeOf xs + sizeOf ys

/-- `std::map<std::string, Json>::operator<`: lexicographic comparison of
the key-sorted entry sequences, with the `std::pair` order
`a.first < b.first || (!(b.first < a.first) && a.second < b.second)`. -/
def jlessO : List (List Nat × JsonV) → List (List Nat × JsonV) → Bool
  | _, [] => false
  | [], _ :: _ => true
  | (k, v) :: xs, (l, w) :: ys =>
    if bytesLt k l || (!bytesLt l k && jless v w) then true
    else if bytesLt l k || (!bytesLt k l && jless w v) then false
    else jlessO xs ys
termination_by xs ys => sizeOf xs + sizeOf ys
end

mutual
/-- `Json::operator==`.  Modelled from the spec: identical tag and
identical payload; numbers (either internal representation) compare by
numeric value, strings by bytes, arrays elementwise
(`std::vector::operator==`), objects entrywise (`std::map::operator==`). -/
def jeq : JsonV → JsonV → Bool
  | jnull, jnull => true
  | jint n, jint m => decide ((n : ℚ) = (m : ℚ))
  | jint n, jdouble q => decide ((n : ℚ) = q)
  | jdouble q, jint n => decide (q = (n : ℚ))
  | jdouble p, jdouble q => decide (p = q)
  | jbool x, jbool y => x == y
  | jstring s, jstring t => decide (s = t)
  | jarray xs, jarray ys => jeqL xs ys
  | jobject xs, jobject ys => jeqO xs ys
  | _, _ => false
termination_by a b => sizeOf a + sizeOf b

/-- `std::vector<Json>::operator==`: equal length and elementwise `==`. -/
def jeqL : List JsonV → List JsonV → Bool
  | [], [] => true
  | x :: xs, y :: ys => jeq x y && jeqL xs ys
  | _, _ => false
termination_by xs ys => sizeOf xs + sizeOf ys

/-- `std::map<std::string, Json>::operator==`: equal size and entrywise
equal keys and values. -/
def jeqO : List (List Nat × JsonV) → List (List Nat × JsonV) → Bool
  | [], [] => true
  | (k, v) :: xs, (l, w) :: ys => decide (k = l) && jeq v w && jeqO xs ys
  | _, _ => false
termination_by xs ys => sizeOf xs + sizeOf ys
end

/-- `Json::operator!=` from the header: `!(*this == rhs)`. -/
def jneq (a b : JsonV) : Bool := !jeq a b

/-- `Json::operator<=` from the header: `!(rhs < *this)`. -/
def jle (a b : JsonV) : Bool := !jless b a

/-- `Json::operator>` from the header: `rhs < *this`. -/
def jgt (a b : JsonV) : Bool := jless b a

/-- `Json::operator>=` from the header: `!(*this < rhs)`. -/
def jge (a b : JsonV) : Bool := !jless a b

/-- ASCII byte sequence of a Lean string literal, used to write down the
byte sequences (`std::string` contents) that appear in concrete inputs. -/
def bytes (s : String) : List Nat := s.toList.map Char.toNat

/-- Rendering of a byte-sequence field name inside an error message. -/
def strOfBytes (bs : List Nat) : String := (bs.map Char.ofNat).asString

/-- JSON whitespace bytes: space, tab, line feed, carriage return. -/
def isWsB (b : Nat) : Bool := b == 32 || b == 9 || b == 10 || b == 13

/-- Skip leading whitespace (the parser's `consume_whitespace`). -/
def skipWs : List Nat → List Nat
  | b :: rest => if isWsB b then skipWs rest else b :: rest
  | [] => []

/-- ASCII decimal digit test. -/
def isDigitB (b : Nat) : Bool := decide (48 ≤ b) && decide (b ≤ 57)

/-- Split off the longest leading run of decimal digits. -/
def takeDigits : List Nat → List Nat × List Nat
  | b :: rest =>
    if isDigitB b then
      let p := takeDigits rest
      (b :: p.1, p.2)
    else ([], b :: rest)
  | [] => ([], [])

/-- The natural number denoted by a list of ASCII digits (most significant
first). -/
def natOfDigits (ds : List Nat) : Nat := ds.foldl (fun acc d => acc * 10 + (d - 48)) 0

/-- Decimal digit bytes of `n`, most significant first, prepended to
`acc`.  The fuel argument (at least `n` at every call site) makes the
recursion structural. -/
def natDigitsAux : Nat → Nat → List Nat → List Nat
  | 0, n, acc => (48 + n % 10) :: acc
  | fuel + 1, n, acc =>
    if n < 10 then (48 + n % 10) :: acc
    else natDigitsAux fuel (n / 10) ((48 + n % 10) :: acc)

/-- Decimal digit bytes of `n`, most significant first, no leading zeros
(a single `0` digit for zero). -/
def natDigits (n : Nat) : List Nat := natDigitsAux n n []

/-- Decimal rendering of an integer: optional minus sign, then digits
(the `snprintf("%d")` of `JsonInt::dump`). -/
def intBytes (i : Int) : List Nat :=
  (if i < 0 then [45] else []) ++ natDigits i.natAbs

/-- Decimal digit string of a number, for error messages. -/
def natStrB (n : Nat) : String := ((natDigits n).map Char.ofNat).asString

/-- Value of one hexadecimal digit byte, if it is one. -/
def hexVal (b : Nat) : Option Nat :=
  if 48 ≤ b ∧ b ≤ 57 then some (b - 48)
  else if 97 ≤ b ∧ b ≤ 102 then some (b - 97 + 10)
  else if 65 ≤ b ∧ b ≤ 70 then some (b - 65 + 10)
  else none

/-- Value of four hexadecimal digit bytes, if all four are hex digits. -/
def hex4 (a b c d : Nat) : Option Nat := do
  let va ← hexVal a
  let vb ← hexVal b
  let vc ← hexVal c
  let vd ← hexVal d
  pure (((va * 16 + vb) * 16 + vc) * 16 + vd)

/-- UTF-8 encoding of a code point (the parser's `encode_utf8`): 1 byte
below 0x80, 2 below 0x800, 3 below 0x10000, else 4. -/
def encode_utf8 (pt : Nat) : List Nat :=
  if pt < 128 then [pt]
  else if pt < 2048 then [192 + pt / 64, 128 + pt % 64]
  else if pt < 65536 then [224 + pt / 4096, 128 + pt / 64 % 64, 128 + pt % 64]
  else [240 + pt / 262144, 128 + pt / 4096 % 64, 128 + pt / 64 % 64, 128 + pt % 64]

mutual
/-- Parse the body of a JSON string after the opening quote.  Modelled
from the spec (section 4.3): the named escapes and `\uXXXX` with
surrogate-pair combination; unescaped control bytes are an error; all
other bytes pass through.  The fuel argument (strictly more than the
remaining input length at every call site) makes the recursion
structural; every step consumes at least one input byte per unit of
fuel.  On failure the first component of the error is the length of the
unconsumed input (the failure position measured from the right); the
message is the second. -/
def parseStringBody : Nat → List Nat → Except (Nat × String) (List Nat × List Nat)
  | 0, s => .error (s.length, "string is too deeply escaped")
  | _ + 1, [] => .error (0, "unexpected end of input in string")
  | fuel + 1, b :: rest =>
    if b = 34 then .ok ([], rest)
    else if b = 92 then parseEscape fuel rest
    else if b < 32 then .error (rest.length + 1, "unescaped char in string")
    else (parseStringBody fuel rest).map (fun p => (b :: p.1, p.2))

/-- Parse one escape sequence, after the backslash. -/
def parseEscape : Nat → List Nat → Except (Nat × String) (List Nat × List Nat)
  | 0, s => .error (s.length, "string is too deeply escaped")
  | _ + 1, [] => .error (0, "unexpected end of input in string")
  | fuel + 1, e :: rest =>
    if e = 98 then (parseStringBody fuel rest).map (fun p => (8 :: p.1, p.2))
    else if e = 102 then (parseStringBody fuel rest).map (fun p => (12 :: p.1, p.2))
    else if e = 110 then (parseStringBody fuel rest).map (fun p => (10 :: p.1, p.2))
    else if e = 114 then (parseStringBody fuel rest).map (fun p => (13 :: p.1, p.2))
    else if e = 116 then (parseStringBody fuel rest).map (fun p => (9 :: p.1, p.2))
    else if e = 34 then (parseStringBody fuel rest).map (fun p => (34 :: p.1, p.2))
    else if e = 92 then (parseStringBody fuel rest).map (fun p => (92 :: p.1, p.2))
    else if e = 47 then (parseStringBody fuel rest).map (fun p => (47 :: p.1, p.2))
    else if e = 117 then parseU fuel rest
    else .error (rest.length + 1, "invalid escape character " ++ natStrB e)

/-- Parse a `\uXXXX` escape, after the `\u`, combining an immediately
following low-surrogate escape with a high surrogate. -/
def parseU : Nat → List Nat → Except (Nat × String) (List Nat × List Nat)
  | 0, s => .error (s.length, "string is too deeply escaped")
  | fuel + 1, h1 :: h2 :: h3 :: h4 :: rest =>
    match hex4 h1 h2 h3 h4 with
    | none => .error (rest.length, "bad hex digits in unicode escape")
    | some cp =>
      if 55296 ≤ cp ∧ cp ≤ 56319 then
        match rest with
        | 92 :: 117 :: g1 :: g2 :: g3 :: g4 :: rest2 =>
          match hex4 g1 g2 g3 g4 with
          | none => .error (rest2.length, "bad hex digits in unicode escape")
          | some cp2 =>
            if 56320 ≤ cp2 ∧ cp2 ≤ 57343 then
              (parseStringBody fuel rest2).map
                (fun p => (encode_utf8 (65536 + (cp - 55296) * 1024 + (cp2 - 56320)) ++ p.1, p.2))
            else
              (parseStringBody fuel rest2).map
                (fun p => (encode_utf8 cp ++ encode_utf8 cp2 ++ p.1, p.2))
        | r => (parseStringBody fuel r).map (fun p => (encode_utf8 cp ++ p.1, p.2))
      else (parseStringBody fuel rest).map (fun p => (encode_utf8 cp ++ p.1, p.2))
  | _ + 1, r => .error (r.length, "bad unicode escape")
end

/-- The exact rational denoted by a decimal literal: sign, integer part,
`flen` fraction digits with value `frac`, and a signed decimal exponent.
Both branches are a quotient of an integer by a power of ten. -/
def mkNum (neg : Bool) (ip frac flen : Nat) (expNeg : Bool) (e : Nat) : ℚ :=
  let mant : Int := (if neg then -1 else 1) * ((ip * 10 ^ flen + frac : Nat) : Int)
  if expNeg then (mant : ℚ) / ((10 ^ (flen + e) : Nat) : ℚ)
  else ((mant * 10 ^ e : Int) : ℚ) / ((10 ^ flen : Nat) : ℚ)

/-- Read the exponent digits and produce the number, given the parts
read so far and the exponent sign. -/
def parseExpDigits (neg : Bool) (ip frac flen : Nat) (esign : Bool) (r1 : List Nat) :
    Except (Nat × String) (JsonV × List Nat) :=
  if (takeDigits r1).1 = [] then .error (r1.length, "expected digit in exponent")
  else
    .ok (jdouble (mkNum neg ip frac flen esign (natOfDigits (takeDigits r1).1)),
      (takeDigits r1).2)

/-- Read an optional exponent sign after `e`/`E`. -/
def parseExpSign (neg : Bool) (ip frac flen : Nat) : List Nat →
    Except (Nat × String) (JsonV × List Nat)
  | 43 :: r2 => parseExpDigits neg ip frac flen false r2
  | 45 :: r2 => parseExpDigits neg ip frac flen true r2
  | r2 => parseExpDigits neg ip frac flen false r2

/-- Read an optional exponent part; without one the number is complete. -/
def parseExp (neg : Bool) (ip frac flen : Nat) : List Nat →
    Except (Nat × String) (JsonV × List Nat)
  | 101 :: r => parseExpSign neg ip frac flen r
  | 69 :: r => parseExpSign neg ip frac flen r
  | s2 => .ok (jdouble (mkNum neg ip frac flen false 0), s2)

/-- Parse the fraction/exponent tail of a number, given the sign and the
integer part already read. -/
def parseAfterInt (neg : Bool) (ip : Nat) : List Nat →
    Except (Nat × String) (JsonV × List Nat)
  | 46 :: r =>
    if (takeDigits r).1 = [] then .error (r.length, "expected digit in fractional part")
    else parseExp neg ip (natOfDigits (takeDigits r).1) (takeDigits r).1.length (takeDigits r).2
  | s2 => parseExp neg ip 0 0 s2

/-- Whether the input starts with a decimal digit. -/
def headIsDigit : List Nat → Bool
  | d :: _ => isDigitB d
  | [] => false

/-- Parse a number after the optional minus sign.  A leading `0` must be
the whole integer part. -/
def parseNumTail (neg : Bool) : List Nat → Except (Nat × String) (JsonV × List Nat)
  | [] => .error (0, "expected digit in number")
  | 48 :: r =>
    if headIsDigit r then .error (r.length, "leading 0s not permitted in numbers")
    else parseAfterInt neg 0 r
  | d :: rest =>
    if isDigitB d then
      parseAfterInt neg (natOfDigits (takeDigits (d :: rest)).1) (takeDigits (d :: rest)).2
    else .error (rest.length + 1, "expected digit in number")

/-- Parse a JSON number.  Modelled from the spec (sections 4.3 and 3):
standard JSON number grammar with no leading zeros in the integer part
except a bare `0`, parsed directly into the single stored floating-point
payload (no separate integer path). -/
def parseNumberBody : List Nat → Except (Nat × String) (JsonV × List Nat)
  | 45 :: s1 => parseNumTail true s1
  | s => parseNumTail false s

/-- Check that the input starts with the given bytes (the tail of a
`null` / `true` / `false` literal), producing the given value. -/
def expectBytes : List Nat → List Nat → JsonV → Except (Nat × String) (JsonV × List Nat)
  | [], s, v => .ok (v, s)
  | e :: es, b :: rest, v =>
    if b = e then expectBytes es rest v
    else .error (rest.length + 1, "parse error in literal")
  | _ :: _, [], _ => .error (0, "unexpected end of input in literal")

/-- Insertion into the entry list of a `std::map<std::string, Json>` kept
in ascending key order: a duplicate key overwrites the prior value
(`data[key] = value`), keeping the original key object. -/
def insertKV (k : List Nat) (v : JsonV) : List (List Nat × JsonV) → List (List Nat × JsonV)
  | [] => [(k, v)]
  | (k', v') :: rest =>
    if bytesLt k k' then (k, v) :: (k', v') :: rest
    else if bytesLt k' k then (k', v') :: insertKV k v rest
    else (k', v) :: rest

mutual
/-- The recursive-descent parser for one JSON value.  Modelled from the
spec (section 4.3): skip whitespace, then dispatch on the first byte to
the literal, string, number, array or object grammar.  The fuel
parameter makes the recursion total; it strictly exceeds the nesting
depth of any accepted document when the public entry point supplies
`input length + 1`.  Errors carry the remaining-input length (converted
to a 1-based line/column by the entry point) and a message. -/
def pJson : Nat → List Nat → Except (Nat × String) (JsonV × List Nat)
  | 0, s => .error (s.length, "exceeded maximum nesting depth")
  | fuel + 1, s =>
    match skipWs s with
    | [] => .error (0, "expected value, got end of input")
    | 110 :: rest => expectBytes [117, 108, 108] rest jnull
    | 116 :: rest => expectBytes [114, 117, 101] rest (jbool true)
    | 102 :: rest => expectBytes [97, 108, 115, 101] rest (jbool false)
    | 34 :: rest => (parseStringBody (rest.length + 1) rest).map (fun p => (jstring p.1, p.2))
    | 91 :: rest =>
      match skipWs rest with
      | 93 :: r => .ok (jarray [], r)
      | s1 => pArr fuel s1 []
    | 123 :: rest =>
      match skipWs rest with
      | 125 :: r => .ok (jobject [], r)
      | s1 => pObj fuel s1 []
    | b :: rest =>
      if b = 45 ∨ isDigitB b then parseNumberBody (b :: rest)
      else .error (rest.length + 1, "expected value")

/-- Parse the remaining comma-separated elements of a non-empty array,
accumulating parsed elements in order. -/
def pArr : Nat → List Nat → List JsonV → Except (Nat × String) (JsonV × List Nat)
  | 0, s, _ => .error (s.length, "exceeded maximum nesting depth")
  | fuel + 1, s, acc =>
    match pJson fuel s with
    | .error e => .error e
    | .ok (v, r) =>
      match skipWs r with
      | 44 :: r2 => pArr fuel r2 (acc ++ [v])
      | 93 :: r2 => .ok (jarray (acc ++ [v]), r2)
      | r1 => .error (r1.length, "expected comma or closing bracket in array")

/-- Parse the remaining members of a non-empty object, inserting each
`key:value` into the accumulated map (`data[key] = value`). -/
def pObj : Nat → List Nat → List (List Nat × JsonV) →
    Except (Nat × String) (JsonV × List Nat)
  | 0, s, _ => .error (s.length, "exceeded maximum nesting depth")
  | fuel + 1, s, acc =>
    match s with
    | 34 :: r =>
      match parseStringBody (r.length + 1) r with
      | .error e => .error e
      | .ok (k, r1) =>
        match skipWs r1 with
        | 58 :: r2 =>
          match pJson fuel r2 with
          | .error e => .error e
          | .ok (v, r3) =>
            match skipWs r3 with
            | 44 :: r4 => pObj fuel (skipWs r4) (insertKV k v acc)
            | 125 :: r4 => .ok (jobject (insertKV k v acc), r4)
            | r5 => .error (r5.length, "expected comma or closing brace in object")
        | r2 => .error (r2.length, "expected colon in object")
    | _ => .error (s.length, "expected key string in object")
end


/-- The 1-based line/column of the failure position, computed from the
consumed prefix of the input (`rem` is the unconsumed length). -/
def posOf (s : List Nat) (rem : Nat) : String :=
  "line " ++ natStrB (1 + (s.take (s.length - rem)).count 10) ++ ", column " ++
    natStrB (((s.take (s.length - rem)).reverse.takeWhile (fun b => decide (b ≠ 10))).length + 1)

/-- `Json::parse(const std::string &in, std::string &err)`.  Modelled
from the spec (sections 4.3 and 7): parse one value, then require only
whitespace to the end of input; on any failure return the null value and
an error message carrying the 1-based line and column of the failure;
on success leave the error unset (`none`). -/
def pTop (s : List Nat) : JsonV × Option String :=
  match pJson (s.length + 1) s with
  | .error (rem, msg) => (jnull, some (msg ++ " at " ++ posOf s rem))
  | .ok (v, r) =>
    match skipWs r with
    | [] => (v, none)
    | r1 => (jnull, some ("unexpected trailing characters at " ++ posOf s r1.length))

/-- `Json::parse(const char *in, std::string &err)`, from the header
(inline in `src/json11.hpp`): a null pointer sets `err` to
`"null input"` and returns the null value; otherwise it delegates to the
`std::string` overload.  The `const char *` argument is embedded as
`Option (List Nat)` (`none` is the null pointer). -/
def parseC : Option (List Nat) → JsonV × Option String
  | some s => pTop s
  | none => (jnull, some ("null input"))

/-- Iteration core of `mult`, structural on its fuel (at least `n` at
every call site). -/
def multAux : Nat → Nat → Nat → Nat
  | 0, _, _ => 0
  | fuel + 1, p, n => if 1 < p ∧ 0 < n ∧ p ∣ n then multAux fuel p (n / p) + 1 else 0

/-- Number of times `p` divides `n` (the multiplicity of a factor). -/
def mult (p n : Nat) : Nat := multAux n p n

/-- Hexadecimal digit byte (lowercase, as `snprintf("%04x")`). -/
def hexDigitB (n : Nat) : Nat := if n < 10 then 48 + n else 87 + n

/-- Escape one byte of a string for output.  Modelled from the spec
(section 4.4): `"`, `\` and control bytes below 0x20 are escaped (the
named escapes for the usual controls, `\u00XX` for the rest); everything
else passes through. -/
def escapeByte (b : Nat) : List Nat :=
  if b = 34 then [92, 34]
  else if b = 92 then [92, 92]
  else if b = 8 then [92, 98]
  else if b = 12 then [92, 102]
  else if b = 10 then [92, 110]
  else if b = 13 then [92, 114]
  else if b = 9 then [92, 116]
  else if b < 32 then [92, 117, 48, 48, hexDigitB (b / 16), hexDigitB (b % 16)]
  else [b]

/-- Escape a whole string body for output. -/
def escapeBytes (s : List Nat) : List Nat := (s.map escapeByte).flatten

/-- Exact decimal rendering of `num / den` with `k` fractional digits
(assuming `den` divides `10^k`): sign, integer digits, and, when
`k > 0`, a point followed by exactly `k` fraction digits. -/
def decimalBytes (num : Int) (den : Nat) (k : Nat) : List Nat :=
  let n := num.natAbs * 10 ^ k / den
  let ds0 := natDigits n
  let ds := List.replicate (k + 1 - ds0.length) 48 ++ ds0
  (if num < 0 then [45] else []) ++ ds.take (ds.length - k) ++
    (if k = 0 then [] else 46 :: ds.drop (ds.length - k))

/-- Serialize a number.  Modelled from the spec (section 4.4): an
integral value in the 64-bit signed range prints as an integer literal;
otherwise the value prints in a round-trip-exact decimal form.  Every
finite binary double has a finite decimal expansion, with exactly
`max (mult 2 den) (mult 5 den)` fractional digits in lowest terms, so
the exact branch covers every double-representable payload; the final
fallback (a 17-digit truncation standing in for `%.17g`) is reachable
only for rationals no double can hold. -/
def dumpNumber (q : ℚ) : List Nat :=
  if q.den = 1 ∧ -(2 ^ 63) ≤ q.num ∧ q.num < 2 ^ 63 then intBytes q.num
  else
    let k := max (mult 2 q.den) (mult 5 q.den)
    if q.den ∣ 10 ^ k then decimalBytes q.num q.den k
    else decimalBytes (ratTrunc (q * 10 ^ 17)) (10 ^ 17) 17

mutual
/-- `Json::dump`.  Modelled from the spec (section 4.4): `null`,
`true`/`false`, numbers per `dumpNumber`, strings quoted and escaped,
arrays bracketed comma-separated, objects braced comma-separated with
entries emitted in the stored (key-sorted) order. -/
def dumpB : JsonV → List Nat
  | jnull => [110, 117, 108, 108]
  | jbool true => [116, 114, 117, 101]
  | jbool false => [102, 97, 108, 115, 101]
  | jint n => intBytes n
  | jdouble q => dumpNumber q
  | jstring s => 34 :: (escapeBytes s ++ [34])
  | jarray xs => 91 :: (dumpItems xs ++ [93])
  | jobject xs => 123 :: (dumpEntries xs ++ [125])

/-- Serialize one object entry: quoted escaped key, colon, value. -/
def dumpKVB (k : List Nat) (v : JsonV) : List Nat :=
  34 :: (escapeBytes k ++ (34 :: (58 :: dumpB v)))

/-- Serialize array elements, comma-separated. -/
def dumpItems : List JsonV → List Nat
  | [] => []
  | x :: xs => dumpB x ++ dumpItemsSep xs

/-- The `,`-prefixed tail of a serialized element list. -/
def dumpItemsSep : List JsonV → List Nat
  | [] => []
  | x :: xs => 44 :: (dumpB x ++ dumpItemsSep xs)

/-- Serialize object entries, comma-separated, in stored order. -/
def dumpEntries : List (List Nat × JsonV) → List Nat
  | [] => []
  | (k, v) :: xs => dumpKVB k v ++ dumpEntriesSep xs

/-- The `,`-prefixed tail of a serialized entry list. -/
def dumpEntriesSep : List (List Nat × JsonV) → List Nat
  | [] => []
  | (k, v) :: xs => 44 :: (dumpKVB k v ++ dumpEntriesSep xs)
end

/-- A `Json::object` built by inserting the given `(key, value)` pairs
into an initially empty `std::map` in sequence order. -/
def mkObject (l : List (List Nat × JsonV)) : JsonV :=
  jobject (l.foldl (fun acc kv => insertKV kv.1 kv.2 acc) [])

/-- The field checks of `has_shape`, in declaration order of the shape
list: the first missing key or wrongly-typed field fails with a message
naming it. -/
def shapeLoop (v : JsonV) : List (List Nat × JType) → Bool × Option String
  | [] => (true, none)
  | (k, t) :: rest =>
    match lookupKV k (object_items v) with
    | none => (false, some ("missing field " ++ strOfBytes k))
    | some w =>
      if typeOf w = t then shapeLoop v rest
      else (false, some ("bad type for field " ++ strOfBytes k))

/-- `Json::has_shape(types, err)`.  Modelled from the spec (section 4.5):
true iff the value is an object and, for every `(name, variant)` pair of
the shape, the object contains that key with a value of that variant;
the first mismatch returns false with a message naming the field.  The
boolean result is paired with the error out-parameter (`none` when
unset). -/
def has_shape (v : JsonV) (types : List (List Nat × JType)) : Bool × Option String :=
  if typeOf v = .OBJECT then shapeLoop v types
  else (false, some ("expected JSON object"))

/-!  ## Theorems  -/

/-- Helper: the accumulator of `natDigitsAux` rides along on the right. -/
theorem natDigitsAux_append (fuel : Nat) : ∀ n acc,
    natDigitsAux fuel n acc = natDigitsAux fuel n [] ++ acc := by
  induction fuel with
  | zero => intro n acc; rfl
  | succ fuel ih =>
    intro n acc
    by_cases h : n < 10
    · simp [natDigitsAux, h]
    · simp only [natDigitsAux, if_neg h]
      rw [ih (n / 10), ih (n / 10) [48 + n % 10]]
      simp

/-- Helper: the digit renderer never returns the empty list. -/
theorem natDigitsAux_ne_nil (fuel n : Nat) (acc : List Nat) :
    natDigitsAux fuel n acc ≠ [] := by
  cases fuel with
  | zero => simp [natDigitsAux]
  | succ fuel =>
    by_cases h : n < 10
    · simp [natDigitsAux, h]
    · simp only [natDigitsAux, if_neg h]
      rw [natDigitsAux_append]
      simp [natDigitsAux_ne_nil fuel (n / 10) []]

/-- Helper: a rendered number is never empty. -/
theorem natDigits_ne_nil (n : Nat) : natDigits n ≠ [] :=
  natDigitsAux_ne_nil n n []

/-- Helper: a rendered number has at least one digit. -/
theorem natDigits_length_pos (n : Nat) : 1 ≤ (natDigits n).length :=
  Nat.succ_le_of_lt (List.length_pos.mpr (natDigits_ne_nil n))

/-- Helper: the length of a rendered decimal number string. -/
theorem natStrB_length_pos (n : Nat) : 1 ≤ (natStrB n).length := by
  have h1 : (natStrB n).length = ((natDigits n).map Char.ofNat).length := rfl
  rw [h1, List.length_map]
  exact natDigits_length_pos n

/-- Helper: the position string always spells a line and a column, both
at least 1. -/
theorem posOf_shape (s : List Nat) (rem : Nat) :
    ∃ l c, posOf s rem = "line " ++ natStrB l ++ ", column " ++ natStrB c ∧
      1 ≤ l ∧ 1 ≤ c :=
  ⟨1 + (s.take (s.length - rem)).count 10,
    ((s.take (s.length - rem)).reverse.takeWhile (fun b => decide (b ≠ 10))).length + 1,
    rfl, by omega, by omega⟩

/-- Helper: string length of an append. -/
theorem str_append_len (a b : String) : (a ++ b).length = a.length + b.length :=
  String.length_append a b

/-- Helper: the length of the position string is at least 16. -/
theorem posOf_length (s : List Nat) (rem : Nat) : 16 ≤ (posOf s rem).length := by
  obtain ⟨l, c, he, _, _⟩ := posOf_shape s rem
  rw [he, str_append_len, str_append_len, str_append_len]
  have h1 := natStrB_length_pos l
  have h2 := natStrB_length_pos c
  have h3 : ("line " : String).length = 5 := rfl
  have h4 : (", column " : String).length = 9 := rfl
  omega

/-- C1 counterexample: the claim orders every BOOL value below every
NUMBER value, but the comparator puts the NUMBER `0` strictly below the
BOOL `false` (the header's enum declares `NUMBER` before `BOOL`). -/
theorem claim_C1_counterexample :
    jless (jbool false) (jdouble 0) = false ∧ jless (jdouble 0) (jbool false) = true := by
  constructor <;> simp [jless, typeOf, tagVal]

/-- C1 (amended): for every two values of different variants, the
comparator orders them by variant tag following the fixed declaration
order of the header's enum, `NUL < NUMBER < BOOL < STRING < ARRAY <
OBJECT` (so every NUMBER value is less than every BOOL value, and every
BOOL value is less than every STRING value). -/
theorem claim_C1 (a b : JsonV) (h : typeOf a ≠ typeOf b) :
    jless a b = true ↔ tagVal (typeOf a) < tagVal (typeOf b) := by
  cases a <;> cases b <;> simp_all [jless, typeOf, tagVal]

/-- C1 witness: the NUMBER `0` is below the BOOL `true`. -/
theorem claim_C1_witness : jless (jdouble 0) (jbool true) = true :=
  (claim_C1 (jdouble 0) (jbool true) (by decide)).mpr (by decide)

/-- C3: every typed accessor on a value of the wrong variant returns the
type-appropriate default (0, false, empty string, empty array, empty
object), and indexing out of range, a missing key, or indexing a
non-container value returns the null value. -/
theorem claim_C3 (v : JsonV) :
    (typeOf v ≠ .NUMBER → number_value v = 0 ∧ int_value v = 0) ∧
    (typeOf v ≠ .BOOL → bool_value v = false) ∧
    (typeOf v ≠ .STRING → string_value v = []) ∧
    (typeOf v ≠ .ARRAY → array_items v = []) ∧
    (typeOf v ≠ .OBJECT → object_items v = []) ∧
    (∀ i, typeOf v ≠ .ARRAY → getIdx v i = jnull) ∧
    (∀ xs i, v = jarray xs → xs.length ≤ i → getIdx v i = jnull) ∧
    (∀ k, typeOf v ≠ .OBJECT → getKey v k = jnull) ∧
    (∀ xs k, v = jobject xs → lookupKV k xs = none → getKey v k = jnull) := by
  cases v <;>
    simp [typeOf, number_value, int_value, bool_value, string_value, array_items,
      object_items, getIdx, getKey] <;>
    intro xs
  · intro i hxs hlen
    cases hxs
    rw [List.getElem?_eq_none hlen]
    rfl
  · intro k hxs hk
    cases hxs
    rw [hk]
    rfl

/-- C3 witness: the defaults at concrete wrong-variant values. -/
theorem claim_C3_witness :
    (number_value jnull = 0 ∧ int_value jnull = 0) ∧ bool_value jnull = false ∧
    string_value jnull = [] ∧ array_items jnull = [] ∧ object_items jnull = [] ∧
    getIdx jnull 0 = jnull ∧ getIdx (jarray [jbool true]) 3 = jnull ∧
    getKey jnull [] = jnull ∧ getKey (jobject []) [97] = jnull :=
  ⟨(claim_C3 jnull).1 (by decide),
   (claim_C3 jnull).2.1 (by decide),
   (claim_C3 jnull).2.2.1 (by decide),
   (claim_C3 jnull).2.2.2.1 (by decide),
   (claim_C3 jnull).2.2.2.2.1 (by decide),
   (claim_C3 jnull).2.2.2.2.2.1 0 (by decide),
   (claim_C3 (jarray [jbool true])).2.2.2.2.2.2.1 [jbool true] 3 rfl (by decide),
   (claim_C3 jnull).2.2.2.2.2.2.2.1 [] (by decide),
   (claim_C3 (jobject [])).2.2.2.2.2.2.2.2 [] [97] rfl rfl⟩

/-- C4: parsing a null input pointer does not reach the parser at all: it
reports exactly the error `"null input"` and returns the null value, and
no in-parser (syntax) failure ever produces that message, since every
syntax error message carries the failure position. -/
theorem claim_C4 :
    parseC none = (jnull, some ("null input")) ∧
    ∀ s v e, parseC (some s) = (v, some e) → e ≠ "null input" := by
  refine ⟨rfl, ?_⟩
  intro s v e h
  have hlen : 20 ≤ e.length := by
    rw [parseC] at h
    rw [pTop] at h
    split at h
    · simp only [Prod.mk.injEq, Option.some.injEq] at h
      rw [← h.2, str_append_len, str_append_len]
      rename_i rem msg heq
      have := posOf_length s rem
      have h4 : (" at " : String).length = 4 := rfl
      omega
    · rename_i v' r heq
      split at h
      · simp at h
      · simp only [Prod.mk.injEq, Option.some.injEq] at h
        rw [← h.2, str_append_len]
        have := posOf_length s (skipWs r).length
        have h4 : ("unexpected trailing characters at " : String).length = 34 := rfl
        omega
  intro he
  rw [he] at hlen
  have : ("null input" : String).length = 10 := rfl
  omega

/-- C4 witness: a parse of the single byte `]` fails with a positioned
message different from `"null input"`. -/
theorem claim_C4_witness :
    parseC none = (jnull, some ("null input")) ∧
    ("expected value at line 1, column 1" : String) ≠ "null input" :=
  ⟨claim_C4.1, claim_C4.2 [93] jnull ("expected value at line 1, column 1") (by rfl)⟩

/-- C5: every failing parse returns the null value (no partial tree) and
an error message that ends in the 1-based line and column of the
failure. -/
theorem claim_C5 (s : List Nat) (v : JsonV) (e : String) (h : pTop s = (v, some e)) :
    v = jnull ∧
    ∃ m l c, e = m ++ "line " ++ natStrB l ++ ", column " ++ natStrB c ∧
      1 ≤ l ∧ 1 ≤ c := by
  rw [pTop] at h
  split at h
  · rename_i rem msg heq
    simp only [Prod.mk.injEq, Option.some.injEq] at h
    obtain ⟨l, c, hpos, hl, hc⟩ := posOf_shape s rem
    refine ⟨h.1.symm, msg ++ " at ", l, c, ?_, hl, hc⟩
    rw [← h.2, hpos]
    simp only [String.append_assoc]
  · rename_i v' r heq
    split at h
    · simp at h
    · simp only [Prod.mk.injEq, Option.some.injEq] at h
      obtain ⟨l, c, hpos, hl, hc⟩ := posOf_shape s (skipWs r).length
      refine ⟨h.1.symm, "unexpected trailing characters at ", l, c, ?_, hl, hc⟩
      rw [← h.2, hpos]
      simp only [String.append_assoc]

/-- C5 witness: the failed parse of `]` yields the null value and a
message carrying line 1, column 1. -/
theorem claim_C5_witness :
    jnull = jnull ∧
    ∃ m l c, ("expected value at line 1, column 1" : String) =
        m ++ "line " ++ natStrB l ++ ", column " ++ natStrB c ∧ 1 ≤ l ∧ 1 ≤ c :=
  claim_C5 [93] jnull ("expected value at line 1, column 1") (by rfl)

/-!  ### The byte-lexicographic string order  -/

/-- Helper: unfolding of the byte order on two nonempty strings. -/
theorem bytesLt_cons (x y : Nat) (xs ys : List Nat) :
    bytesLt (x :: xs) (y :: ys) =
      if x < y then true else if y < x then false else bytesLt xs ys := by
  simp [bytesLt, lexLt, bltN]

/-- Helper: the empty string is the least string. -/
theorem bytesLt_nil_left (y : Nat) (ys : List Nat) : bytesLt [] (y :: ys) = true := rfl

/-- Helper: no string is below the empty string. -/
theorem bytesLt_nil_right (s : List Nat) : bytesLt s [] = false := by
  cases s <;> rfl

/-- Helper: the byte order never holds both ways. -/
theorem bytesLt_asym : ∀ s t : List Nat, bytesLt s t = true → bytesLt t s = false := by
  intro s
  induction s with
  | nil => intro t _; exact bytesLt_nil_right t
  | cons x xs ih =>
    intro t h
    cases t with
    | nil => rw [bytesLt_nil_right] at h; exact absurd h (by simp)
    | cons y ys =>
      rw [bytesLt_cons] at h ⊢
      by_cases hxy : x < y
      · have h1 : ¬y < x := by omega
        simp [hxy, h1]
      · by_cases hyx : y < x
        · simp [hxy, hyx] at h
        · simp only [hxy, hyx, if_false] at h ⊢
          exact ih ys h

/-- Helper: the byte order is irreflexive. -/
theorem bytesLt_irrefl (s : List Nat) : bytesLt s s = false := by
  cases h : bytesLt s s
  · rfl
  · exact h.symm.trans (bytesLt_asym s s h)

/-- Helper: the byte order is transitive. -/
theorem bytesLt_trans : ∀ s t u : List Nat,
    bytesLt s t = true → bytesLt t u = true → bytesLt s u = true := by
  intro s
  induction s with
  | nil =>
    intro t u h1 h2
    cases u with
    | nil => rw [bytesLt_nil_right] at h2; exact absurd h2 (by simp)
    | cons z zs => exact bytesLt_nil_left z zs
  | cons x xs ih =>
    intro t u h1 h2
    cases t with
    | nil => rw [bytesLt_nil_right] at h1; exact absurd h1 (by simp)
    | cons y ys =>
      cases u with
      | nil => rw [bytesLt_nil_right] at h2; exact absurd h2 (by simp)
      | cons z zs =>
        rw [bytesLt_cons] at h1 h2 ⊢
        by_cases hxy : x < y <;> by_cases hyz : y < z
        · have hxz : x < z := by omega
          simp [hxz]
        · by_cases hzy : z < y
          · simp [hxy, hyz, hzy] at h2
          · have hzy2 : z = y := by omega
            subst hzy2
            simp [hxy]
        · by_cases hyx : y < x
          · simp [hxy, hyx] at h1
          · have hxy2 : x = y := by omega
            subst hxy2
            simp [hyz]
        · by_cases hyx : y < x
          · simp [hxy, hyx] at h1
          · by_cases hzy : z < y
            · simp [hyz, hzy] at h2
            · have hxy2 : x = y := by omega
              have hzy2 : y = z := by omega
              subst hxy2; subst hzy2
              simp only [lt_irrefl, if_false] at h1 h2 ⊢
              exact ih ys zs h1 h2

/-- Helper: bytes incomparable both ways are equal. -/
theorem bytesLt_conn : ∀ s t : List Nat,
    bytesLt s t = false → bytesLt t s = false → s = t := by
  intro s
  induction s with
  | nil =>
    intro t h1 _
    cases t with
    | nil => rfl
    | cons y ys => rw [bytesLt_nil_left] at h1; exact absurd h1 (by simp)
  | cons x xs ih =>
    intro t h1 h2
    cases t with
    | nil => rw [bytesLt_nil_left] at h2; exact absurd h2 (by simp)
    | cons y ys =>
      rw [bytesLt_cons] at h1 h2
      by_cases hxy : x < y
      · simp [hxy] at h1
      · by_cases hyx : y < x
        · simp [hxy, hyx] at h2
        · have hxy2 : x = y := by omega
          subst hxy2
          simp only [lt_irrefl, if_false] at h1 h2
          rw [ih ys h1 h2]

/-!  ### Sorted-map insertion  -/

/-- The strict key order on object entries (the `std::map` invariant). -/
def keyLt (a b : List Nat × JsonV) : Prop := bytesLt a.1 b.1 = true

instance : IsAntisymm (List Nat × JsonV) keyLt where
  antisymm a b h1 h2 := absurd (bytesLt_asym a.1 b.1 h1) (by rw [h2]; simp)

/-- Helper: every entry of an insertion carries the inserted key or a key
already present. -/
theorem insertKV_mem (k : List Nat) (v : JsonV) :
    ∀ l, ∀ p ∈ insertKV k v l, p.1 = k ∨ ∃ w, (p.1, w) ∈ l := by
  intro l
  induction l with
  | nil => intro p hp; simp [insertKV] at hp; simp [hp]
  | cons q rest ih =>
    obtain ⟨k', v'⟩ := q
    intro p hp
    rw [insertKV] at hp
    by_cases h1 : bytesLt k k' = true
    · rw [if_pos h1] at hp
      simp only [List.mem_cons] at hp
      rcases hp with h | h | h
      · simp_all
      · exact Or.inr ⟨v', by simp_all⟩
      · refine Or.inr ⟨p.2, ?_⟩
        rw [Prod.mk.eta]
        exact List.mem_cons_of_mem _ h
    · rw [if_neg h1] at hp
      by_cases h2 : bytesLt k' k = true
      · rw [if_pos h2] at hp
        simp only [List.mem_cons] at hp
        rcases hp with h | h
        · exact Or.inr ⟨v', by simp_all⟩
        · rcases ih p h with h3 | ⟨w, h3⟩
          · exact Or.inl h3
          · exact Or.inr ⟨w, List.mem_cons_of_mem _ h3⟩
      · rw [if_neg h2] at hp
        simp only [List.mem_cons] at hp
        rcases hp with h | h
        · exact Or.inr ⟨v', by simp_all⟩
        · refine Or.inr ⟨p.2, ?_⟩
          rw [Prod.mk.eta]
          exact List.mem_cons_of_mem _ h

/-- Helper: insertion preserves the strict key-sorted invariant. -/
theorem insertKV_pairwise (k : List Nat) (v : JsonV) :
    ∀ l, l.Pairwise keyLt → (insertKV k v l).Pairwise keyLt := by
  intro l
  induction l with
  | nil => intro _; simp [insertKV, keyLt]
  | cons q rest ih =>
    obtain ⟨k', v'⟩ := q
    intro h
    rw [List.pairwise_cons] at h
    obtain ⟨hall, hrest⟩ := h
    rw [insertKV]
    by_cases h1 : bytesLt k k' = true
    · rw [if_pos h1]
      refine List.Pairwise.cons ?_ (List.Pairwise.cons hall hrest)
      intro b hb
      rw [List.mem_cons] at hb
      rcases hb with h | h
      · rw [keyLt, h]; exact h1
      · exact bytesLt_trans _ _ _ h1 (hall b h)
    · rw [if_neg h1]
      by_cases h2 : bytesLt k' k = true
      · rw [if_pos h2]
        refine List.Pairwise.cons ?_ (ih hrest)
        intro b hb
        rcases insertKV_mem k v rest b hb with h3 | ⟨w, h3⟩
        · rw [keyLt, h3]; exact h2
        · exact hall (b.1, w) h3
      · rw [if_neg h2]
        exact List.Pairwise.cons hall hrest

/-- Helper: inserting a fresh key is a permutation of consing it. -/
theorem insertKV_perm (k : List Nat) (v : JsonV) :
    ∀ l, (∀ p ∈ l, p.1 ≠ k) → (insertKV k v l).Perm ((k, v) :: l) := by
  intro l
  induction l with
  | nil => intro _; simp [insertKV]
  | cons q rest ih =>
    obtain ⟨k', v'⟩ := q
    intro hk
    rw [insertKV]
    by_cases h1 : bytesLt k k' = true
    · rw [if_pos h1]
    · rw [if_neg h1]
      by_cases h2 : bytesLt k' k = true
      · rw [if_pos h2]
        have step := (ih (fun p hp => hk p (List.mem_cons_of_mem _ hp))).cons (k', v')
        exact step.trans (List.Perm.swap (k, v) (k', v') rest)
      · rw [if_neg h2]
        exfalso
        have hkk : k' = k :=
          bytesLt_conn k' k (by simpa using h2) (by simpa using h1)
        exact hk (k', v') (by simp) hkk

/-- Helper: folding insertions of distinct keys over a sorted accumulator
produces a sorted permutation of everything. -/
theorem insFold_spec :
    ∀ (l acc : List (List Nat × JsonV)), acc.Pairwise keyLt →
      ((acc ++ l).map Prod.fst).Nodup →
      (l.foldl (fun acc kv => insertKV kv.1 kv.2 acc) acc).Perm (acc ++ l) ∧
      (l.foldl (fun acc kv => insertKV kv.1 kv.2 acc) acc).Pairwise keyLt := by
  intro l
  induction l with
  | nil =>
    intro acc hs _
    constructor
    · rw [List.append_nil]
      exact List.Perm.refl acc
    · simpa using hs
  | cons kv rest ih =>
    intro acc hs hnd
    obtain ⟨k, v⟩ := kv
    have hknotin : ∀ p ∈ acc, p.1 ≠ k := by
      intro p hp hpk
      rw [List.map_append, List.nodup_append] at hnd
      have hm1 : p.1 ∈ acc.map Prod.fst := List.mem_map_of_mem Prod.fst hp
      have hm2 : p.1 ∈ ((k, v) :: rest).map Prod.fst := by simp [hpk]
      exact hnd.2.2 hm1 hm2
    have hins : (insertKV k v acc).Perm ((k, v) :: acc) := insertKV_perm k v acc hknotin
    have hinss : (insertKV k v acc).Pairwise keyLt := insertKV_pairwise k v acc hs
    have hnd2 : (((insertKV k v acc) ++ rest).map Prod.fst).Nodup := by
      have hp2 : ((insertKV k v acc) ++ rest).Perm (acc ++ (k, v) :: rest) :=
        (hins.append_right rest).trans (List.perm_middle).symm
      exact (hp2.map Prod.fst).nodup_iff.mpr hnd
    obtain ⟨hperm, hsorted⟩ := ih (insertKV k v acc) hinss hnd2
    constructor
    · simp only [List.foldl_cons]
      refine hperm.trans ?_
      exact (hins.append_right rest).trans (List.perm_middle).symm
    · simpa using hsorted

/-!  ### C6, C8, C10  -/

/-- C6: `has_shape` returns true iff the value is an object containing,
for every `(name, variant)` pair of the shape, that key with a value of
that variant (so fields not listed in the shape never affect the
result); on failure with an object, the first failing pair is reported
in a message naming its field. -/
theorem claim_C6 (v : JsonV) (spec : List (List Nat × JType)) :
    ((has_shape v spec).1 = true ↔
      (typeOf v = .OBJECT ∧
        ∀ kt ∈ spec, ∃ w, lookupKV kt.1 (object_items v) = some w ∧ typeOf w = kt.2)) ∧
    (typeOf v = .OBJECT → (has_shape v spec).1 = false →
      ∃ pre k t post, spec = pre ++ (k, t) :: post ∧
        (∀ kt ∈ pre, ∃ w, lookupKV kt.1 (object_items v) = some w ∧ typeOf w = kt.2) ∧
        ¬(∃ w, lookupKV k (object_items v) = some w ∧ typeOf w = t) ∧
        ((has_shape v spec).2 = some ("missing field " ++ strOfBytes k) ∨
         (has_shape v spec).2 = some ("bad type for field " ++ strOfBytes k))) := by
  have main : ∀ sp : List (List Nat × JType),
      ((shapeLoop v sp).1 = true ↔
        ∀ kt ∈ sp, ∃ w, lookupKV kt.1 (object_items v) = some w ∧ typeOf w = kt.2) ∧
      ((shapeLoop v sp).1 = false →
        ∃ pre k t post, sp = pre ++ (k, t) :: post ∧
          (∀ kt ∈ pre, ∃ w, lookupKV kt.1 (object_items v) = some w ∧ typeOf w = kt.2) ∧
          ¬(∃ w, lookupKV k (object_items v) = some w ∧ typeOf w = t) ∧
          ((shapeLoop v sp).2 = some ("missing field " ++ strOfBytes k) ∨
           (shapeLoop v sp).2 = some ("bad type for field " ++ strOfBytes k))) := by
    intro sp
    induction sp with
    | nil => simp [shapeLoop]
    | cons kt rest ih =>
      obtain ⟨k, t⟩ := kt
      cases hl : lookupKV k (object_items v) with
      | none =>
        constructor
        · simp only [shapeLoop, hl]
          constructor
          · intro hf
            exact absurd hf (by simp)
          · intro hall
            exfalso
            obtain ⟨w, hw, _⟩ := hall (k, t) (by simp)
            rw [hl] at hw
            exact absurd hw (by simp)
        · intro _
          refine ⟨[], k, t, rest, rfl, by simp, ?_, ?_⟩
          · rintro ⟨w, hw, _⟩
            rw [hl] at hw
            exact absurd hw (by simp)
          · simp [shapeLoop, hl]
      | some w =>
        by_cases ht : typeOf w = t
        · have hstep : shapeLoop v ((k, t) :: rest) = shapeLoop v rest := by
            simp [shapeLoop, hl, ht]
          constructor
          · rw [hstep, ih.1]
            constructor
            · intro hall kt2 hkt2
              rw [List.mem_cons] at hkt2
              rcases hkt2 with h | h
              · rw [h]; exact ⟨w, hl, ht⟩
              · exact hall kt2 h
            · intro hall kt2 hkt2
              exact hall kt2 (List.mem_cons_of_mem _ hkt2)
          · intro hfail
            rw [hstep] at hfail
            obtain ⟨pre, k2, t2, post, hsp, hpre, hfailkt, hmsg⟩ := ih.2 hfail
            refine ⟨(k, t) :: pre, k2, t2, post, by rw [hsp]; rfl, ?_, hfailkt, ?_⟩
            · intro kt2 hkt2
              rw [List.mem_cons] at hkt2
              rcases hkt2 with h | h
              · rw [h]; exact ⟨w, hl, ht⟩
              · exact hpre kt2 h
            · rw [hstep]
              exact hmsg
        · constructor
          · simp only [shapeLoop, hl]
            rw [if_neg ht]
            constructor
            · intro hf
              exact absurd hf (by simp)
            · intro hall
              exfalso
              obtain ⟨w2, hw2, ht2⟩ := hall (k, t) (by simp)
              rw [hl] at hw2
              cases hw2
              exact ht ht2
          · intro _
            refine ⟨[], k, t, rest, rfl, by simp, ?_, ?_⟩
            · rintro ⟨w2, hw2, ht2⟩
              rw [hl] at hw2
              cases hw2
              exact ht ht2
            · simp [shapeLoop, hl, ht]
  by_cases hobj : typeOf v = .OBJECT
  · have hh : has_shape v spec = shapeLoop v spec := by simp [has_shape, hobj]
    rw [hh]
    constructor
    · rw [(main spec).1]
      simp [hobj]
    · intro _ hfail
      exact (main spec).2 hfail
  · have hh : has_shape v spec = (false, some ("expected JSON object")) := by
      simp [has_shape, hobj]
    rw [hh]
    constructor
    · simp [hobj]
    · intro h
      exact absurd h hobj

/-- C6 witness: a passing and a failing shape check at concrete values. -/
theorem claim_C6_witness :
    (has_shape (jobject [(bytes ("id"), jbool true)]) [(bytes ("id"), JType.BOOL)]).1 = true ∧
    ¬(has_shape (jobject [(bytes ("id"), jbool true)]) [(bytes ("nm"), JType.BOOL)]).1 = true := by
  constructor
  · exact (claim_C6 (jobject [(bytes ("id"), jbool true)]) [(bytes ("id"), JType.BOOL)]).1.mpr
      ⟨rfl, by
        intro kt hkt
        simp only [List.mem_singleton] at hkt
        subst hkt
        exact ⟨jbool true, by rfl, rfl⟩⟩
  · intro h
    obtain ⟨_, hall⟩ :=
      (claim_C6 (jobject [(bytes ("id"), jbool true)]) [(bytes ("nm"), JType.BOOL)]).1.mp h
    obtain ⟨w, hw, _⟩ := hall (bytes ("nm"), JType.BOOL) (by simp)
    revert hw
    simp [bytes, lookupKV, object_items]

/-- C8: objects keep their entries in strictly key-sorted order, and the
serializer emits entries in that stored order, so building an object from
the same pairs in any insertion order yields identical dump output. -/
theorem claim_C8 (l1 l2 : List (List Nat × JsonV)) (hp : l1.Perm l2)
    (hnd : (l1.map Prod.fst).Nodup) :
    dumpB (mkObject l1) = dumpB (mkObject l2) ∧
    (object_items (mkObject l1)).Pairwise keyLt := by
  have hnd2 : (l2.map Prod.fst).Nodup := ((hp.map Prod.fst).nodup_iff).mp hnd
  obtain ⟨hperm1, hsort1⟩ := insFold_spec l1 [] (by simp) (by simpa using hnd)
  obtain ⟨hperm2, hsort2⟩ := insFold_spec l2 [] (by simp) (by simpa using hnd2)
  simp only [List.nil_append] at hperm1 hperm2
  have hpp : (l1.foldl (fun acc kv => insertKV kv.1 kv.2 acc) []).Perm
      (l2.foldl (fun acc kv => insertKV kv.1 kv.2 acc) []) :=
    (hperm1.trans hp).trans hperm2.symm
  have heq : l1.foldl (fun acc kv => insertKV kv.1 kv.2 acc) [] =
      l2.foldl (fun acc kv => insertKV kv.1 kv.2 acc) [] :=
    List.eq_of_perm_of_sorted hpp hsort1 hsort2
  constructor
  · rw [mkObject, mkObject, heq]
  · rw [mkObject, object_items]
    exact hsort1

/-- C8 witness: the two insertion orders of `b:1, a:2` dump identically
and store their entries key-sorted. -/
theorem claim_C8_witness :
    dumpB (mkObject [(bytes ("b"), jdouble 1), (bytes ("a"), jdouble 2)]) =
      dumpB (mkObject [(bytes ("a"), jdouble 2), (bytes ("b"), jdouble 1)]) ∧
    (object_items (mkObject [(bytes ("b"), jdouble 1),
      (bytes ("a"), jdouble 2)])).Pairwise keyLt :=
  claim_C8 _ _ (List.Perm.swap _ _ _) (by decide)

/-- Helper: truncation of an integer-valued rational is the integer. -/
theorem ratTrunc_intCast (n : Int) : ratTrunc (n : ℚ) = n := by
  rw [ratTrunc, Rat.num_intCast, Rat.den_intCast]
  by_cases h : 0 ≤ n
  · simp only [h, if_true, Nat.div_one]
    exact Int.toNat_of_nonneg h
  · simp only [h, if_false, Nat.div_one]
    rw [Int.toNat_of_nonneg (by omega)]
    omega

/-- C10: a NUMBER built from the int constructor (`JsonInt`) and one
built from the double constructor (`JsonDouble`) with the same numeric
value compare equal under `==`, both report type NUMBER, and agree on
`number_value` and `int_value`. -/
theorem claim_C10 (n : Int) :
    typeOf (jint n) = .NUMBER ∧ typeOf (jdouble (n : ℚ)) = .NUMBER ∧
    jeq (jint n) (jdouble (n : ℚ)) = true ∧
    number_value (jint n) = number_value (jdouble (n : ℚ)) ∧
    int_value (jint n) = int_value (jdouble (n : ℚ)) := by
  refine ⟨rfl, rfl, ?_, rfl, ?_⟩
  · simp [jeq]
  · simp [int_value, ratTrunc_intCast]

/-!  ### The total order on values  -/

/-- Helper: unfolding `jless` on two arrays. -/
theorem jless_arr (xs ys : List JsonV) : jless (jarray xs) (jarray ys) = jlessL xs ys := by
  simp [jless]

/-- Helper: unfolding `jless` on two objects. -/
theorem jless_obj (xs ys : List (List Nat × JsonV)) :
    jless (jobject xs) (jobject ys) = jlessO xs ys := by
  simp [jless]

/-- Helper: nothing is below the empty element list. -/
theorem jlessL_nil_right (xs : List JsonV) : jlessL xs [] = false := by
  cases xs <;> simp [jlessL]

/-- Helper: the empty element list is below a nonempty one. -/
theorem jlessL_nil_left (y : JsonV) (ys : List JsonV) : jlessL [] (y :: ys) = true := by
  simp [jlessL]

/-- Helper: unfolding the array element comparison on two nonempty lists. -/
theorem jlessL_cons (x y : JsonV) (xs ys : List JsonV) :
    jlessL (x :: xs) (y :: ys) =
      if jless x y then true else if jless y x then false else jlessL xs ys := by
  simp [jlessL]

/-- Helper: nothing is below the empty entry list. -/
theorem jlessO_nil_right (xs : List (List Nat × JsonV)) : jlessO xs [] = false := by
  cases xs with
  | nil => simp [jlessO]
  | cons q rest => obtain ⟨k, v⟩ := q; simp [jlessO]

/-- Helper: the empty entry list is below a nonempty one. -/
theorem jlessO_nil_left (q : List Nat × JsonV) (ys : List (List Nat × JsonV)) :
    jlessO [] (q :: ys) = true := by
  obtain ⟨k, v⟩ := q; simp [jlessO]

/-- Helper: unfolding the object entry comparison on two nonempty lists
(the `std::pair` order on the heads). -/
theorem jlessO_cons (k l : List Nat) (v w : JsonV) (xs ys : List (List Nat × JsonV)) :
    jlessO ((k, v) :: xs) ((l, w) :: ys) =
      if bytesLt k l || (!bytesLt l k && jless v w) then true
      else if bytesLt l k || (!bytesLt k l && jless w v) then false
      else jlessO xs ys := by
  simp [jlessO]

/-- Helper: unfolding `jeq` on two arrays. -/
theorem jeq_arr (xs ys : List JsonV) : jeq (jarray xs) (jarray ys) = jeqL xs ys := by
  simp [jeq]

/-- Helper: unfolding `jeq` on two objects. -/
theorem jeq_obj (xs ys : List (List Nat × JsonV)) :
    jeq (jobject xs) (jobject ys) = jeqO xs ys := by
  simp [jeq]

/-- Helper: cross-variant comparison is the numeric comparison of the
enum tags. -/
theorem jless_cross : ∀ a b : JsonV, typeOf a ≠ typeOf b →
    jless a b = decide (tagVal (typeOf a) < tagVal (typeOf b)) := by
  intro a b h
  cases a <;> cases b <;> simp_all [jless, typeOf, tagVal]

/-- Helper: `jeq` is false across different variants. -/
theorem jeq_cross : ∀ a b : JsonV, typeOf a ≠ typeOf b → jeq a b = false := by
  intro a b h
  cases a <;> cases b <;> simp_all [jeq, typeOf]

/-- Helper: comparison never holds both ways. -/
theorem jless_asym : ∀ a b : JsonV, jless a b = true → jless b a = false := by
  suffices H : ∀ n, ∀ a b : JsonV, sizeOf a + sizeOf b ≤ n →
      jless a b = true → jless b a = false from
    fun a b => H (sizeOf a + sizeOf b) a b le_rfl
  intro n
  induction n using Nat.strong_induction_on with
  | _ n ih =>
  intro a b hn hab
  by_cases htype : typeOf a = typeOf b
  case neg =>
    rw [jless_cross a b htype] at hab
    rw [jless_cross b a (fun hc => htype hc.symm)]
    simp only [decide_eq_true_eq] at hab
    simp only [decide_eq_false_iff_not]
    omega
  case pos =>
  cases a with
  | jnull => cases b <;> simp_all [jless, typeOf]
  | jbool x =>
    cases b <;> simp_all [typeOf]
    rename_i y
    revert hab
    cases x <;> cases y <;> simp [jless]
  | jint m =>
    cases b <;> simp_all [typeOf] <;> rename_i m2 <;> revert hab <;>
      simp only [jless, decide_eq_true_eq, decide_eq_false_iff_not] <;>
      intro hab <;> exact not_lt.mpr (le_of_lt hab)
  | jdouble q =>
    cases b <;> simp_all [typeOf] <;> rename_i m2 <;> revert hab <;>
      simp only [jless, decide_eq_true_eq, decide_eq_false_iff_not] <;>
      intro hab <;> exact not_lt.mpr (le_of_lt hab)
  | jstring s =>
    cases b <;> simp_all [typeOf]
    rename_i t
    revert hab
    simp only [jless]
    exact bytesLt_asym s t
  | jarray xs =>
    cases b <;> simp_all [typeOf]
    rename_i ys
    rw [jless_arr] at hab ⊢
    cases xs with
    | nil =>
      cases ys with
      | nil => simp [jlessL] at hab
      | cons y ys' => exact jlessL_nil_right _
    | cons x xs' =>
      cases ys with
      | nil => rw [jlessL_nil_right] at hab; exact absurd hab (by simp)
      | cons y ys' =>
        simp only [JsonV.jarray.sizeOf_spec, List.cons.sizeOf_spec] at hn
        have hszx : sizeOf x + sizeOf y < n := by omega
        have hszt : sizeOf (jarray xs') + sizeOf (jarray ys') < n := by
          simp only [JsonV.jarray.sizeOf_spec]
          omega
        rw [jlessL_cons] at hab ⊢
        by_cases h1 : jless x y = true
        · have h2 : jless y x = false := ih _ hszx x y le_rfl h1
          rw [if_neg (by simp [h2]), if_pos h1]
        · by_cases h2 : jless y x = true
          · rw [if_neg (by simp [h1]), if_pos h2] at hab
            exact absurd hab (by simp)
          · rw [if_neg (by simp [h1]), if_neg (by simp [h2])] at hab
            rw [if_neg (by simp [h2]), if_neg (by simp [h1])]
            have := ih _ hszt (jarray xs') (jarray ys') le_rfl (by rw [jless_arr]; exact hab)
            rw [jless_arr] at this
            exact this
  | jobject xs =>
    cases b <;> simp_all [typeOf]
    rename_i ys
    rw [jless_obj] at hab ⊢
    cases xs with
    | nil =>
      cases ys with
      | nil => simp [jlessO] at hab
      | cons q ys' => exact jlessO_nil_right _
    | cons p xs' =>
      obtain ⟨k, v⟩ := p
      cases ys with
      | nil => rw [jlessO_nil_right] at hab; exact absurd hab (by simp)
      | cons q ys' =>
        obtain ⟨l, w⟩ := q
        simp only [JsonV.jobject.sizeOf_spec, List.cons.sizeOf_spec,
          Prod.mk.sizeOf_spec] at hn
        have hszx : sizeOf v + sizeOf w < n := by omega
        have hszt : sizeOf (jobject xs') + sizeOf (jobject ys') < n := by
          simp only [JsonV.jobject.sizeOf_spec]
          omega
        rw [jlessO_cons] at hab ⊢
        by_cases c1 : bytesLt k l = true
        · have c1r : bytesLt l k = false := bytesLt_asym k l c1
          rw [if_neg (by simp [c1r, c1]), if_pos (by simp [c1])]
        · by_cases c2 : bytesLt l k = true
          · rw [if_neg (by simp [c1, c2]), if_pos (by simp [c2])] at hab
            exact absurd hab (by simp)
          · have c1f : bytesLt k l = false := by simpa using c1
            have c2f : bytesLt l k = false := by simpa using c2
            by_cases jv : jless v w = true
            · have jw : jless w v = false := ih _ hszx v w le_rfl jv
              rw [if_neg (by simp [c2f, c1f, jw]), if_pos (by simp [c1f, c2f, jv])]
            · have jvf : jless v w = false := by simpa using jv
              by_cases jw : jless w v = true
              · rw [if_neg (by simp [c1f, c2f, jvf]), if_pos (by simp [c2f, c1f, jw])] at hab
                exact absurd hab (by simp)
              · have jwf : jless w v = false := by simpa using jw
                rw [if_neg (by simp [c1f, c2f, jvf]), if_neg (by simp [c2f, c1f, jwf])] at hab
                rw [if_neg (by simp [c2f, c1f, jwf]), if_neg (by simp [c1f, c2f, jvf])]
                have := ih _ hszt (jobject xs') (jobject ys') le_rfl
                  (by rw [jless_obj]; exact hab)
                rw [jless_obj] at this
                exact this

/-- Helper: the enum tag values are distinct. -/
theorem tagVal_inj : ∀ t1 t2 : JType, tagVal t1 = tagVal t2 → t1 = t2 := by
  intro t1 t2
  cases t1 <;> cases t2 <;> simp [tagVal]

/-- Helper: the separately implemented equality coincides with mutual
incomparability. -/
theorem jeq_iff : ∀ a b : JsonV, jeq a b = true ↔
    (jless a b = false ∧ jless b a = false) := by
  suffices H : ∀ n, ∀ a b : JsonV, sizeOf a + sizeOf b ≤ n →
      (jeq a b = true ↔ (jless a b = false ∧ jless b a = false)) from
    fun a b => H (sizeOf a + sizeOf b) a b le_rfl
  intro n
  induction n using Nat.strong_induction_on with
  | _ n ih =>
  intro a b hn
  by_cases htype : typeOf a = typeOf b
  case neg =>
    rw [jeq_cross a b htype, jless_cross a b htype,
      jless_cross b a (fun hc => htype hc.symm)]
    have hne : tagVal (typeOf a) ≠ tagVal (typeOf b) :=
      fun hc => htype (tagVal_inj _ _ hc)
    constructor
    · intro hf; exact absurd hf (by simp)
    · rintro ⟨h1, h2⟩
      simp only [decide_eq_false_iff_not] at h1 h2
      omega
  case pos =>
  cases a with
  | jnull => cases b <;> simp_all [jless, jeq, typeOf]
  | jbool x =>
    cases b <;> simp_all [typeOf]
    rename_i y
    cases x <;> cases y <;> simp [jless, jeq]
  | jint m =>
    cases b <;> simp_all [typeOf] <;>
      simp only [jless, jeq, decide_eq_true_eq, decide_eq_false_iff_not, not_lt] <;>
      constructor
    · intro h; rw [h]; exact ⟨le_refl _, le_refl _⟩
    · rintro ⟨h1, h2⟩; exact le_antisymm h2 h1
    · intro h; rw [h]; exact ⟨le_refl _, le_refl _⟩
    · rintro ⟨h1, h2⟩; exact le_antisymm h2 h1
  | jdouble q =>
    cases b <;> simp_all [typeOf] <;>
      simp only [jless, jeq, decide_eq_true_eq, decide_eq_false_iff_not, not_lt] <;>
      constructor
    · intro h; rw [h]; exact ⟨le_refl _, le_refl _⟩
    · rintro ⟨h1, h2⟩; exact le_antisymm h2 h1
    · intro h; rw [h]; exact ⟨le_refl _, le_refl _⟩
    · rintro ⟨h1, h2⟩; exact le_antisymm h2 h1
  | jstring s =>
    cases b <;> simp_all [typeOf]
    rename_i t
    simp only [jless, jeq, decide_eq_true_eq]
    constructor
    · intro h; rw [h]; exact ⟨bytesLt_irrefl t, bytesLt_irrefl t⟩
    · rintro ⟨h1, h2⟩; exact bytesLt_conn s t h1 h2
  | jarray xs =>
    cases b <;> simp_all [typeOf]
    rename_i ys
    rw [jless_arr, jless_arr, jeq_arr]
    cases xs with
    | nil =>
      cases ys with
      | nil => simp [jeqL, jlessL]
      | cons y ys' => simp [jeqL, jlessL_nil_left, jlessL_nil_right]
    | cons x xs' =>
      cases ys with
      | nil => simp [jeqL, jlessL_nil_left, jlessL_nil_right]
      | cons y ys' =>
        simp only [JsonV.jarray.sizeOf_spec, List.cons.sizeOf_spec] at hn
        have hszx : sizeOf x + sizeOf y ≤ n - 1 := by omega
        have hszt : sizeOf (jarray xs') + sizeOf (jarray ys') ≤ n - 1 := by
          simp only [JsonV.jarray.sizeOf_spec]
          omega
        have hlt : n - 1 < n := by omega
        rw [jlessL_cons, jlessL_cons]
        rw [show jeqL (x :: xs') (y :: ys') = (jeq x y && jeqL xs' ys') from by simp [jeqL]]
        by_cases h1 : jless x y = true
        · have h2 : jless y x = false := jless_asym x y h1
          have hxy : jeq x y = false := by
            rw [show (jeq x y = false) = ¬(jeq x y = true) from by simp]
            rw [ih _ hlt x y hszx]
            simp [h1]
          simp [h1, h2, hxy]
        · have h1f : jless x y = false := by simpa using h1
          by_cases h2 : jless y x = true
          · have hxy : jeq x y = false := by
              rw [show (jeq x y = false) = ¬(jeq x y = true) from by simp]
              rw [ih _ hlt x y hszx]
              simp [h2]
            simp [h1f, h2, hxy]
          · have h2f : jless y x = false := by simpa using h2
            have hxy : jeq x y = true := by
              rw [ih _ hlt x y hszx]
              exact ⟨h1f, h2f⟩
            have htail := ih _ hlt (jarray xs') (jarray ys') hszt
            rw [jless_arr, jless_arr, jeq_arr] at htail
            simp [h1f, h2f, hxy]
            simpa using htail
  | jobject xs =>
    cases b <;> simp_all [typeOf]
    rename_i ys
    rw [jless_obj, jless_obj, jeq_obj]
    cases xs with
    | nil =>
      cases ys with
      | nil => simp [jeqO, jlessO]
      | cons q ys' =>
        obtain ⟨l, w⟩ := q
        simp [jeqO, jlessO_nil_left, jlessO_nil_right]
    | cons p xs' =>
      obtain ⟨k, v⟩ := p
      cases ys with
      | nil => simp [jeqO, jlessO_nil_left, jlessO_nil_right]
      | cons q ys' =>
        obtain ⟨l, w⟩ := q
        simp only [JsonV.jobject.sizeOf_spec, List.cons.sizeOf_spec,
          Prod.mk.sizeOf_spec] at hn
        have hszx : sizeOf v + sizeOf w ≤ n - 1 := by omega
        have hszt : sizeOf (jobject xs') + sizeOf (jobject ys') ≤ n - 1 := by
          simp only [JsonV.jobject.sizeOf_spec]
          omega
        have hlt : n - 1 < n := by omega
        rw [jlessO_cons, jlessO_cons]
        rw [show jeqO ((k, v) :: xs') ((l, w) :: ys') =
          (decide (k = l) && jeq v w && jeqO xs' ys') from by simp [jeqO]]
        by_cases c1 : bytesLt k l = true
        · have c1r : bytesLt l k = false := bytesLt_asym k l c1
          have hkl : decide (k = l) = false := by
            simp only [decide_eq_false_iff_not]
            intro hc
            rw [hc] at c1
            exact absurd c1 (by simp [bytesLt_irrefl])
          simp [c1, c1r, hkl]
        · have c1f : bytesLt k l = false := by simpa using c1
          by_cases c2 : bytesLt l k = true
          · have hkl : decide (k = l) = false := by
              simp only [decide_eq_false_iff_not]
              intro hc
              rw [hc] at c2
              exact absurd c2 (by simp [bytesLt_irrefl])
            simp [c1f, c2, hkl]
          · have c2f : bytesLt l k = false := by simpa using c2
            have hkl : k = l := bytesLt_conn k l c1f c2f
            subst hkl
            by_cases jv : jless v w = true
            · have jw : jless w v = false := jless_asym v w jv
              have hvw : jeq v w = false := by
                rw [show (jeq v w = false) = ¬(jeq v w = true) from by simp]
                rw [ih _ hlt v w hszx]
                simp [jv]
              simp [c1f, c2f, jv, jw, hvw]
            · have jvf : jless v w = false := by simpa using jv
              by_cases jw : jless w v = true
              · have hvw : jeq v w = false := by
                  rw [show (jeq v w = false) = ¬(jeq v w = true) from by simp]
                  rw [ih _ hlt v w hszx]
                  simp [jw]
                simp [c1f, c2f, jvf, jw, hvw]
              · have jwf : jless w v = false := by simpa using jw
                have hvw : jeq v w = true := by
                  rw [ih _ hlt v w hszx]
                  exact ⟨jvf, jwf⟩
                have htail := ih _ hlt (jobject xs') (jobject ys') hszt
                rw [jless_obj, jless_obj, jeq_obj] at htail
                simp [c1f, c2f, jvf, jwf, hvw]
                simpa using htail

/-- Helper: equal values have equal tags. -/
theorem jeq_type (a b : JsonV) (h : jeq a b = true) : typeOf a = typeOf b := by
  by_contra hc
  rw [jeq_cross a b hc] at h
  exact absurd h (by simp)

/-- Helper: the `std::pair` entry order holds iff the keys are strictly
ordered or equal keys with strictly ordered values. -/
theorem pairLt_iff (k l : List Nat) (v w : JsonV) :
    (bytesLt k l || (!bytesLt l k && jless v w)) = true ↔
      (bytesLt k l = true ∨ (k = l ∧ jless v w = true)) := by
  by_cases c1 : bytesLt k l = true
  · simp [c1]
  · have c1f : bytesLt k l = false := by simpa using c1
    by_cases c2 : bytesLt l k = true
    · have hne : k ≠ l := by
        intro hc
        rw [hc] at c2
        exact absurd c2 (by simp [bytesLt_irrefl])
      simp [c1f, c2, hne]
    · have c2f : bytesLt l k = false := by simpa using c2
      have hkl : k = l := bytesLt_conn k l c1f c2f
      simp [c1f, c2f, hkl, bytesLt_irrefl]

/-- Helper: equal values compare identically against every third value. -/
theorem jless_congr : ∀ a b c : JsonV, jeq a b = true →
    jless a c = jless b c ∧ jless c a = jless c b := by
  suffices H : ∀ n, ∀ a b c : JsonV, sizeOf a + sizeOf b + sizeOf c ≤ n →
      jeq a b = true → jless a c = jless b c ∧ jless c a = jless c b from
    fun a b c => H (sizeOf a + sizeOf b + sizeOf c) a b c le_rfl
  intro n
  induction n using Nat.strong_induction_on with
  | _ n ih =>
  intro a b c hn hab
  have htype : typeOf a = typeOf b := jeq_type a b hab
  by_cases hc : typeOf c = typeOf a
  case neg =>
    have hca : typeOf a ≠ typeOf c := fun h => hc h.symm
    have hcb : typeOf b ≠ typeOf c := fun h => hc (htype.trans h).symm
    rw [jless_cross a c hca, jless_cross b c hcb,
      jless_cross c a (fun h => hca h.symm), jless_cross c b (fun h => hcb h.symm), htype]
    exact ⟨rfl, rfl⟩
  case pos =>
  cases a with
  | jnull =>
    cases b <;> simp_all [typeOf]
  | jbool x =>
    cases b <;> simp_all [typeOf]
    rename_i y
    cases c <;> simp_all [typeOf, jeq, jless]
  | jint m =>
    cases b <;> simp_all [typeOf] <;> rename_i y <;> cases c <;> simp_all [typeOf] <;>
      revert hab <;> simp only [jeq, jless, decide_eq_true_eq] <;> intro h <;>
      rw [h] <;> exact ⟨rfl, rfl⟩
  | jdouble q =>
    cases b <;> simp_all [typeOf] <;> rename_i y <;> cases c <;> simp_all [typeOf] <;>
      revert hab <;> simp only [jeq, jless, decide_eq_true_eq] <;> intro h <;>
      rw [h] <;> exact ⟨rfl, rfl⟩
  | jstring s =>
    cases b <;> simp_all [typeOf]
    rename_i t
    cases c <;> simp_all [typeOf]
    revert hab
    simp only [jeq, jless, decide_eq_true_eq]
    intro h
    rw [h]
    exact ⟨rfl, rfl⟩
  | jarray xs =>
    cases b <;> simp_all [typeOf]
    rename_i ys
    cases c <;> simp_all [typeOf]
    rename_i zs
    rw [jeq_arr] at hab
    rw [jless_arr, jless_arr, jless_arr, jless_arr]
    cases xs with
    | nil =>
      cases ys with
      | nil => exact ⟨rfl, rfl⟩
      | cons y ys' => simp [jeqL] at hab
    | cons x xs' =>
      cases ys with
      | nil => simp [jeqL] at hab
      | cons y ys' =>
        have hxy : jeq x y = true ∧ jeqL xs' ys' = true := by
          have := hab
          simp only [jeqL, Bool.and_eq_true] at this
          exact this
        cases zs with
        | nil =>
          constructor
          · rw [jlessL_nil_right, jlessL_nil_right]
          · rw [jlessL_nil_left, jlessL_nil_left]
        | cons z zs' =>
          simp only [JsonV.jarray.sizeOf_spec, List.cons.sizeOf_spec] at hn
          have hhead := ih (n - 1) (by omega) x y z (by omega) hxy.1
          have htail := ih (n - 1) (by omega) (jarray xs') (jarray ys') (jarray zs')
            (by simp only [JsonV.jarray.sizeOf_spec]; omega) (by rw [jeq_arr]; exact hxy.2)
          rw [jless_arr, jless_arr, jless_arr, jless_arr] at htail
          rw [jlessL_cons, jlessL_cons, jlessL_cons, jlessL_cons,
            hhead.1, hhead.2, htail.1, htail.2]
          exact ⟨rfl, rfl⟩
  | jobject xs =>
    cases b <;> simp_all [typeOf]
    rename_i ys
    cases c <;> simp_all [typeOf]
    rename_i zs
    rw [jeq_obj] at hab
    rw [jless_obj, jless_obj, jless_obj, jless_obj]
    cases xs with
    | nil =>
      cases ys with
      | nil => exact ⟨rfl, rfl⟩
      | cons q ys' => obtain ⟨l, w⟩ := q; simp [jeqO] at hab
    | cons p xs' =>
      obtain ⟨k, v⟩ := p
      cases ys with
      | nil => simp [jeqO] at hab
      | cons q ys' =>
        obtain ⟨l, w⟩ := q
        have hk : k = l ∧ jeq v w = true ∧ jeqO xs' ys' = true := by
          have := hab
          simp only [jeqO, Bool.and_eq_true, decide_eq_true_eq] at this
          exact ⟨this.1.1, this.1.2, this.2⟩
        obtain ⟨hkl, hvw, htl⟩ := hk
        subst hkl
        cases zs with
        | nil =>
          constructor
          · rw [jlessO_nil_right, jlessO_nil_right]
          · rw [jlessO_nil_left, jlessO_nil_left]
        | cons r zs' =>
          obtain ⟨m, u⟩ := r
          simp only [JsonV.jobject.sizeOf_spec, List.cons.sizeOf_spec,
            Prod.mk.sizeOf_spec] at hn
          have hhead := ih (n - 1) (by omega) v w u (by omega) hvw
          have htail := ih (n - 1) (by omega) (jobject xs') (jobject ys') (jobject zs')
            (by simp only [JsonV.jobject.sizeOf_spec]; omega) (by rw [jeq_obj]; exact htl)
          rw [jless_obj, jless_obj, jless_obj, jless_obj] at htail
          rw [jlessO_cons, jlessO_cons, jlessO_cons, jlessO_cons,
            hhead.1, hhead.2, htail.1, htail.2]
          exact ⟨rfl, rfl⟩

/-- Helper: destructuring the array element comparison on cons cells. -/
theorem jlessL_cons_iff (x y : JsonV) (xs ys : List JsonV) :
    jlessL (x :: xs) (y :: ys) = true ↔
      (jless x y = true ∨
       (jless x y = false ∧ jless y x = false ∧ jlessL xs ys = true)) := by
  rw [jlessL_cons]
  by_cases h1 : jless x y = true
  · simp [h1]
  · have h1f : jless x y = false := by simpa using h1
    by_cases h2 : jless y x = true
    · simp [h1f, h2]
    · have h2f : jless y x = false := by simpa using h2
      simp [h1f, h2f]

/-- Helper: destructuring the object entry comparison on cons cells. -/
theorem jlessO_cons_iff (k l : List Nat) (v w : JsonV) (xs ys : List (List Nat × JsonV)) :
    jlessO ((k, v) :: xs) ((l, w) :: ys) = true ↔
      ((bytesLt k l = true ∨ (k = l ∧ jless v w = true)) ∨
       (k = l ∧ jless v w = false ∧ jless w v = false ∧ jlessO xs ys = true)) := by
  rw [jlessO_cons]
  by_cases c1 : bytesLt k l = true
  · have c1r : bytesLt l k = false := bytesLt_asym k l c1
    have hne : ¬k = l := by
      intro hc
      rw [hc] at c1
      exact absurd c1 (by simp [bytesLt_irrefl])
    simp [c1, c1r, hne]
  · have c1f : bytesLt k l = false := by simpa using c1
    by_cases c2 : bytesLt l k = true
    · have hne : ¬k = l := by
        intro hc
        rw [hc] at c2
        exact absurd c2 (by simp [bytesLt_irrefl])
      simp [c1f, c2, hne]
    · have c2f : bytesLt l k = false := by simpa using c2
      have hkl : k = l := bytesLt_conn k l c1f c2f
      subst hkl
      by_cases jv : jless v w = true
      · simp [c1f, c2f, jv]
      · have jvf : jless v w = false := by simpa using jv
        by_cases jw : jless w v = true
        · simp [c1f, c2f, jvf, jw]
        · have jwf : jless w v = false := by simpa using jw
          simp [c1f, c2f, jvf, jwf]

/-- Helper: comparison is transitive. -/
theorem jless_trans : ∀ a b c : JsonV, jless a b = true → jless b c = true →
    jless a c = true := by
  suffices H : ∀ n, ∀ a b c : JsonV, sizeOf a + sizeOf b + sizeOf c ≤ n →
      jless a b = true → jless b c = true → jless a c = true from
    fun a b c => H (sizeOf a + sizeOf b + sizeOf c) a b c le_rfl
  intro n
  induction n using Nat.strong_induction_on with
  | _ n ih =>
  intro a b c hn hab hbc
  by_cases t1 : typeOf a = typeOf b
  case neg =>
    by_cases t2 : typeOf b = typeOf c
    case pos =>
      rw [jless_cross a b t1] at hab
      simp only [decide_eq_true_eq] at hab
      have htac : typeOf a ≠ typeOf c := by
        intro hc
        rw [hc, t2] at hab
        omega
      rw [t2] at hab
      rw [jless_cross a c htac]
      simp only [decide_eq_true_eq]
      exact hab
    case neg =>
      rw [jless_cross a b t1] at hab
      rw [jless_cross b c t2] at hbc
      simp only [decide_eq_true_eq] at hab hbc
      have htac : typeOf a ≠ typeOf c := by
        intro hc
        rw [hc] at hab
        omega
      rw [jless_cross a c htac]
      simp only [decide_eq_true_eq]
      omega
  case pos =>
  by_cases t2 : typeOf b = typeOf c
  case neg =>
    rw [jless_cross b c t2] at hbc
    simp only [decide_eq_true_eq] at hbc
    have htac : typeOf a ≠ typeOf c := by
      intro hc
      rw [← t1, hc] at hbc
      omega
    rw [jless_cross a c htac, t1]
    simp only [decide_eq_true_eq]
    exact hbc
  case pos =>
  cases a with
  | jnull =>
    cases b <;> try (solve | exfalso; revert t1; simp [typeOf])
    cases c <;> try (solve | exfalso; revert t2; simp [typeOf])
    revert hab
    simp [jless]
  | jbool x =>
    cases b <;> try (solve | exfalso; revert t1; simp [typeOf])
    rename_i y
    cases c <;> try (solve | exfalso; revert t2; simp [typeOf])
    rename_i z
    revert hab hbc
    cases x <;> cases y <;> cases z <;> simp [jless]
  | jint m =>
    cases b <;> try (solve | exfalso; revert t1; simp [typeOf])
    all_goals cases c <;> try (solve | exfalso; revert t2; simp [typeOf])
    all_goals revert hab hbc
    all_goals simp only [jless, decide_eq_true_eq]
    all_goals exact fun h1 h2 => lt_trans h1 h2
  | jdouble q =>
    cases b <;> try (solve | exfalso; revert t1; simp [typeOf])
    all_goals cases c <;> try (solve | exfalso; revert t2; simp [typeOf])
    all_goals revert hab hbc
    all_goals simp only [jless, decide_eq_true_eq]
    all_goals exact fun h1 h2 => lt_trans h1 h2
  | jstring s =>
    cases b <;> try (solve | exfalso; revert t1; simp [typeOf])
    rename_i t
    cases c <;> try (solve | exfalso; revert t2; simp [typeOf])
    rename_i u
    revert hab hbc
    simp only [jless]
    exact bytesLt_trans s t u
  | jarray xs =>
    cases b <;> try (solve | exfalso; revert t1; simp [typeOf])
    rename_i ys
    cases c <;> try (solve | exfalso; revert t2; simp [typeOf])
    rename_i zs
    rw [jless_arr] at hab hbc ⊢
    cases ys with
    | nil => rw [jlessL_nil_right] at hab; exact absurd hab (by simp)
    | cons y ys' =>
      cases zs with
      | nil => rw [jlessL_nil_right] at hbc; exact absurd hbc (by simp)
      | cons z zs' =>
        cases xs with
        | nil => rw [jlessL_nil_left]
        | cons x xs' =>
          simp only [JsonV.jarray.sizeOf_spec, List.cons.sizeOf_spec] at hn
          rw [jlessL_cons_iff] at hab hbc ⊢
          rcases hab with hxy | ⟨hxyf, hyxf, htab⟩
          · rcases hbc with hyz | ⟨hyzf, hzyf, htbc⟩
            · exact Or.inl (ih (n - 1) (by omega) x y z (by omega) hxy hyz)
            · have heqyz : jeq y z = true := (jeq_iff y z).mpr ⟨hyzf, hzyf⟩
              have hcg := (jless_congr y z x heqyz).2
              exact Or.inl (hcg ▸ hxy)
          · have heqxy : jeq x y = true := (jeq_iff x y).mpr ⟨hxyf, hyxf⟩
            rcases hbc with hyz | ⟨hyzf, hzyf, htbc⟩
            · have hcg := (jless_congr x y z heqxy).1
              exact Or.inl (hcg.trans hyz)
            · have heqyz : jeq y z = true := (jeq_iff y z).mpr ⟨hyzf, hzyf⟩
              refine Or.inr ⟨?_, ?_, ?_⟩
              · rw [(jless_congr x y z heqxy).1]
                exact hyzf
              · rw [(jless_congr x y z heqxy).2]
                exact hzyf
              · have := ih (n - 1) (by omega) (jarray xs') (jarray ys') (jarray zs')
                  (by simp only [JsonV.jarray.sizeOf_spec]; omega)
                  (by rw [jless_arr]; exact htab) (by rw [jless_arr]; exact htbc)
                rw [jless_arr] at this
                exact this
  | jobject xs =>
    cases b <;> try (solve | exfalso; revert t1; simp [typeOf])
    rename_i ys
    cases c <;> try (solve | exfalso; revert t2; simp [typeOf])
    rename_i zs
    rw [jless_obj] at hab hbc ⊢
    cases ys with
    | nil => rw [jlessO_nil_right] at hab; exact absurd hab (by simp)
    | cons q ys' =>
      obtain ⟨l, w⟩ := q
      cases zs with
      | nil => rw [jlessO_nil_right] at hbc; exact absurd hbc (by simp)
      | cons r zs' =>
        obtain ⟨m2, u⟩ := r
        cases xs with
        | nil => rw [jlessO_nil_left]
        | cons p xs' =>
          obtain ⟨k, v⟩ := p
          simp only [JsonV.jobject.sizeOf_spec, List.cons.sizeOf_spec,
            Prod.mk.sizeOf_spec] at hn
          rw [jlessO_cons_iff] at hab hbc ⊢
          rcases hab with hk1 | ⟨hkl, hvwf, hwvf, htab⟩
          · rcases hbc with hk2 | ⟨hlm, hwuf, huwf, htbc⟩
            · -- strict at the first heads and strict-or-equal at the second
              rcases hk1 with hklt | ⟨hkeq, hvw⟩ <;> rcases hk2 with hllt | ⟨hleq, hwu⟩
              · exact Or.inl (Or.inl (bytesLt_trans k l m2 hklt hllt))
              · exact Or.inl (Or.inl (hleq ▸ hklt))
              · exact Or.inl (Or.inl (hkeq ▸ hllt))
              · refine Or.inl (Or.inr ⟨hkeq.trans hleq, ?_⟩)
                exact ih (n - 1) (by omega) v w u (by omega) hvw hwu
            · -- second pair incomparable: equal keys and equal values
              have heqwu : jeq w u = true := (jeq_iff w u).mpr ⟨hwuf, huwf⟩
              rcases hk1 with hklt | ⟨hkeq, hvw⟩
              · exact Or.inl (Or.inl (hlm ▸ hklt))
              · refine Or.inl (Or.inr ⟨hkeq.trans hlm, ?_⟩)
                rw [← (jless_congr w u v heqwu).2]
                exact hvw
          · have heqvw : jeq v w = true := (jeq_iff v w).mpr ⟨hvwf, hwvf⟩
            rcases hbc with hk2 | ⟨hlm, hwuf, huwf, htbc⟩
            · rcases hk2 with hllt | ⟨hleq, hwu⟩
              · exact Or.inl (Or.inl (hkl ▸ hllt))
              · refine Or.inl (Or.inr ⟨hkl.trans hleq, ?_⟩)
                rw [(jless_congr v w u heqvw).1]
                exact hwu
            · have heqwu : jeq w u = true := (jeq_iff w u).mpr ⟨hwuf, huwf⟩
              refine Or.inr ⟨hkl.trans hlm, ?_, ?_, ?_⟩
              · rw [(jless_congr v w u heqvw).1]
                exact hwuf
              · rw [(jless_congr v w u heqvw).2]
                exact huwf
              · have := ih (n - 1) (by omega) (jobject xs') (jobject ys') (jobject zs')
                  (by simp only [JsonV.jobject.sizeOf_spec]; omega)
                  (by rw [jless_obj]; exact htab) (by rw [jless_obj]; exact htbc)
                rw [jless_obj] at this
                exact this

/-- C2: the comparison operators form a legal total order: for every two
values exactly one of `a<b`, `a==b`, `b<a` holds; `<` is transitive; and
the separately implemented equality holds iff neither `a<b` nor `b<a`. -/
theorem claim_C2 (a b c : JsonV) :
    ((jless a b = true ∧ jeq a b = false ∧ jless b a = false) ∨
     (jeq a b = true ∧ jless a b = false ∧ jless b a = false) ∨
     (jless b a = true ∧ jeq a b = false ∧ jless a b = false)) ∧
    (jless a b = true → jless b c = true → jless a c = true) ∧
    (jeq a b = true ↔ (jless a b = false ∧ jless b a = false)) := by
  refine ⟨?_, fun h1 h2 => jless_trans a b c h1 h2, jeq_iff a b⟩
  by_cases h1 : jless a b = true
  · have h2 : jless b a = false := jless_asym a b h1
    have h3 : jeq a b = false := by
      rw [show (jeq a b = false) = ¬(jeq a b = true) from by simp, jeq_iff]
      simp [h1]
    exact Or.inl ⟨h1, h3, h2⟩
  · have h1f : jless a b = false := by simpa using h1
    by_cases h2 : jless b a = true
    · have h3 : jeq a b = false := by
        rw [show (jeq a b = false) = ¬(jeq a b = true) from by simp, jeq_iff]
        simp [h2]
      exact Or.inr (Or.inr ⟨h2, h3, h1f⟩)
    · have h2f : jless b a = false := by simpa using h2
      exact Or.inr (Or.inl ⟨(jeq_iff a b).mpr ⟨h1f, h2f⟩, h1f, h2f⟩)

/-- C2 witness: transitivity applied at `null < false < true`. -/
theorem claim_C2_witness : jless jnull (jbool true) = true :=
  (claim_C2 jnull (jbool false) (jbool true)).2.1
    (by simp [jless, typeOf, tagVal]) (by simp [jless])

/-!  ### The parse invariant  -/

mutual
/-- The invariant of every value the parser produces: numbers are stored
in the double representation with a denominator dividing a power of ten
(every decimal literal denotes such a rational), and object entry lists
are strictly key-sorted (the `std::map` invariant), recursively. -/
inductive Inv : JsonV → Prop
  | null : Inv jnull
  | dbl (q : ℚ) : (∃ N, q.den ∣ 10 ^ N) → Inv (jdouble q)
  | bool (b : Bool) : Inv (jbool b)
  | str (s : List Nat) : Inv (jstring s)
  | arr (xs : List JsonV) : InvL xs → Inv (jarray xs)
  | obj (xs : List (List Nat × JsonV)) : xs.Pairwise keyLt → InvO xs → Inv (jobject xs)

/-- The invariant, elementwise over an array's items. -/
inductive InvL : List JsonV → Prop
  | nil : InvL []
  | cons (x : JsonV) (xs : List JsonV) : Inv x → InvL xs → InvL (x :: xs)

/-- The invariant, over an object's entry values. -/
inductive InvO : List (List Nat × JsonV) → Prop
  | nil : InvO []
  | cons (k : List Nat) (v : JsonV) (xs : List (List Nat × JsonV)) :
      Inv v → InvO xs → InvO ((k, v) :: xs)
end

/-- Helper: the denominator of an integer divided by a power of ten
divides that power of ten. -/
theorem den_div_pow_dvd (a : Int) (M : Nat) :
    ((a : ℚ) / ((10 ^ M : Nat) : ℚ)).den ∣ 10 ^ M := by
  have h := Rat.den_dvd a ((10 : ℤ) ^ M)
  rw [Rat.divInt_eq_div] at h
  have hc : (((10 : ℤ) ^ M : ℤ) : ℚ) = ((10 ^ M : Nat) : ℚ) := by push_cast; ring
  rw [hc] at h
  have h2 : (((a : ℚ) / ((10 ^ M : Nat) : ℚ)).den : ℤ) ∣ (((10 ^ M : Nat) : ℤ)) := by
    have hcast : ((10 : ℤ) ^ M) = (((10 ^ M : Nat)) : ℤ) := by push_cast; ring
    rw [hcast] at h
    exact h
  exact_mod_cast h2

/-- Helper: every decimal literal denotes a rational whose denominator
divides a power of ten. -/
theorem mkNum_den (neg : Bool) (ip frac flen : Nat) (expNeg : Bool) (e : Nat) :
    ∃ N, (mkNum neg ip frac flen expNeg e).den ∣ 10 ^ N := by
  rw [mkNum]
  by_cases h : expNeg = true
  · rw [if_pos h]
    exact ⟨flen + e, den_div_pow_dvd _ _⟩
  · rw [if_neg h]
    exact ⟨flen, den_div_pow_dvd _ _⟩

/-- Helper: the literal checker returns the value it was given. -/
theorem expectBytes_ok : ∀ (es s : List Nat) (v w : JsonV) (r : List Nat),
    expectBytes es s v = .ok (w, r) → w = v := by
  intro es
  induction es with
  | nil =>
    intro s v w r h
    rw [expectBytes] at h
    simp only [Except.ok.injEq, Prod.mk.injEq] at h
    exact h.1.symm
  | cons e es' ih =>
    intro s v w r h
    cases s with
    | nil => rw [expectBytes] at h; exact absurd h (by simp)
    | cons b rest =>
      rw [expectBytes] at h
      by_cases hb : b = e
      · rw [if_pos hb] at h
        exact ih rest v w r h
      · rw [if_neg hb] at h
        exact absurd h (by simp)

/-- Helper: the invariant over a concatenation of item lists. -/
theorem InvL_append : ∀ a b : List JsonV, InvL a → InvL b → InvL (a ++ b) := by
  intro a
  induction a with
  | nil => intro b _ hb; exact hb
  | cons x xs ih =>
    intro b ha hb
    cases ha with
    | cons _ _ hx hxs => exact InvL.cons _ _ hx (ih b hxs hb)

/-- Helper: insertion preserves the entry-value invariant. -/
theorem insertKV_invO (k : List Nat) (v : JsonV) (hv : Inv v) :
    ∀ l, InvO l → InvO (insertKV k v l) := by
  intro l
  induction l with
  | nil => intro _; exact InvO.cons _ _ _ hv InvO.nil
  | cons q rest ih =>
    obtain ⟨k', v'⟩ := q
    intro h
    cases h with
    | cons _ _ _ hv' hrest =>
      rw [insertKV]
      by_cases h1 : bytesLt k k' = true
      · rw [if_pos h1]
        exact InvO.cons _ _ _ hv (InvO.cons _ _ _ hv' hrest)
      · rw [if_neg h1]
        by_cases h2 : bytesLt k' k = true
        · rw [if_pos h2]
          exact InvO.cons _ _ _ hv' (ih hrest)
        · rw [if_neg h2]
          exact InvO.cons _ _ _ hv hrest

/-- Helper: every number the number grammar accepts satisfies the
invariant. -/
theorem parseExpDigits_inv (neg : Bool) (ip frac flen : Nat) (esign : Bool)
    (r1 : List Nat) (v : JsonV) (r : List Nat)
    (h : parseExpDigits neg ip frac flen esign r1 = .ok (v, r)) : Inv v := by
  rw [parseExpDigits] at h
  split at h
  · exact absurd h (by simp)
  · simp only [Except.ok.injEq, Prod.mk.injEq] at h
    rw [← h.1]
    exact Inv.dbl _ (mkNum_den _ _ _ _ _ _)

/-- Helper: the invariant through the exponent-sign reader. -/
theorem parseExpSign_inv (neg : Bool) (ip frac flen : Nat) (s : List Nat)
    (v : JsonV) (r : List Nat)
    (h : parseExpSign neg ip frac flen s = .ok (v, r)) : Inv v := by
  rw [parseExpSign.eq_def] at h
  split at h
  all_goals exact parseExpDigits_inv _ _ _ _ _ _ _ _ h

/-- Helper: the invariant through the exponent reader. -/
theorem parseExp_inv (neg : Bool) (ip frac flen : Nat) (s : List Nat)
    (v : JsonV) (r : List Nat)
    (h : parseExp neg ip frac flen s = .ok (v, r)) : Inv v := by
  rw [parseExp.eq_def] at h
  split at h
  · exact parseExpSign_inv _ _ _ _ _ _ _ h
  · exact parseExpSign_inv _ _ _ _ _ _ _ h
  · simp only [Except.ok.injEq, Prod.mk.injEq] at h
    rw [← h.1]
    exact Inv.dbl _ (mkNum_den _ _ _ _ _ _)

/-- Helper: the invariant through the fraction reader. -/
theorem parseAfterInt_inv (neg : Bool) (ip : Nat) (s : List Nat) (v : JsonV) (r : List Nat)
    (h : parseAfterInt neg ip s = .ok (v, r)) : Inv v := by
  rw [parseAfterInt.eq_def] at h
  split at h
  · split at h
    · exact absurd h (by simp)
    · exact parseExp_inv _ _ _ _ _ _ _ h
  · exact parseExp_inv _ _ _ _ _ _ _ h

/-- Helper: every number the parser accepts satisfies the invariant. -/
theorem parseNumberBody_inv (s : List Nat) (v : JsonV) (r : List Nat)
    (h : parseNumberBody s = .ok (v, r)) : Inv v := by
  have tail : ∀ neg s1, parseNumTail neg s1 = .ok (v, r) → Inv v := by
    intro neg s1 h1
    rw [parseNumTail.eq_def] at h1
    split at h1
    · exact absurd h1 (by simp)
    · split at h1
      · exact absurd h1 (by simp)
      · exact parseAfterInt_inv _ _ _ _ _ h1
    · split at h1
      · exact parseAfterInt_inv _ _ _ _ _ h1
      · exact absurd h1 (by simp)
  rw [parseNumberBody.eq_def] at h
  split at h
  · exact tail _ _ h
  · exact tail _ _ h

/-- Helper: inversion of `Except.map` at a success. -/
theorem exceptMap_ok {α β ε : Type} (f : α → β) (x : Except ε α) (b : β)
    (h : Except.map f x = .ok b) : ∃ a, x = .ok a ∧ b = f a := by
  cases x with
  | error e => exact absurd h (by simp [Except.map])
  | ok a =>
    refine ⟨a, rfl, ?_⟩
    have h2 : Except.ok (ε := ε) (f a) = Except.ok b := h
    simpa using h2.symm

/-- Helper: the parser invariant, jointly for the value, array-tail and
object-tail parsers, by induction on the fuel. -/
theorem pJson_inv : ∀ fuel : Nat,
    (∀ s v r, pJson fuel s = .ok (v, r) → Inv v) ∧
    (∀ s acc v r, pArr fuel s acc = .ok (v, r) → InvL acc → Inv v) ∧
    (∀ s acc v r, pObj fuel s acc = .ok (v, r) →
      acc.Pairwise keyLt → InvO acc → Inv v) := by
  intro fuel
  induction fuel with
  | zero =>
    refine ⟨?_, ?_, ?_⟩
    · intro s v r h; rw [pJson] at h; exact absurd h (by simp)
    · intro s acc v r h _; rw [pArr] at h; exact absurd h (by simp)
    · intro s acc v r h _ _; rw [pObj] at h; exact absurd h (by simp)
  | succ n ih =>
    obtain ⟨ihJ, ihA, ihO⟩ := ih
    refine ⟨?_, ?_, ?_⟩
    · intro s v r h
      rw [pJson] at h
      repeat' split at h
      all_goals
        solve
        | simp at h
        | (rw [expectBytes_ok _ _ _ _ _ h]
           first
           | exact Inv.null
           | exact Inv.bool _)
        | (obtain ⟨p, _, hv⟩ := exceptMap_ok _ _ _ h
           simp only [Prod.mk.injEq] at hv
           rw [hv.1]
           exact Inv.str _)
        | (simp only [Except.ok.injEq, Prod.mk.injEq] at h
           rw [← h.1]
           first
           | exact Inv.arr _ InvL.nil
           | exact Inv.obj _ List.Pairwise.nil InvO.nil)
        | exact ihA _ _ _ _ h InvL.nil
        | exact ihO _ _ _ _ h List.Pairwise.nil InvO.nil
        | exact parseNumberBody_inv _ _ _ h
    · intro s acc v r h hacc
      rw [pArr] at h
      repeat' split at h
      all_goals
        solve
        | simp at h
        | exact ihA _ _ _ _ h
            (InvL_append _ _ hacc (InvL.cons _ _ (ihJ _ _ _ (by assumption)) InvL.nil))
        | (simp only [Except.ok.injEq, Prod.mk.injEq] at h
           rw [← h.1]
           exact Inv.arr _
             (InvL_append _ _ hacc (InvL.cons _ _ (ihJ _ _ _ (by assumption)) InvL.nil)))
    · intro s acc v r h hsort hinv
      cases s with
      | nil =>
        rw [show pObj (n + 1) [] acc =
          Except.error (0, "expected key string in object") from rfl] at h
        exact absurd h (by simp)
      | cons b rest =>
        by_cases hb : b = 34
        · subst hb
          rw [pObj] at h
          repeat' split at h
          all_goals
            solve
            | simp at h
            | exact ihO _ _ _ _ h (insertKV_pairwise _ _ _ hsort)
                (insertKV_invO _ _ (ihJ _ _ _ (by assumption)) _ hinv)
            | (simp only [Except.ok.injEq, Prod.mk.injEq] at h
               rw [← h.1]
               exact Inv.obj _ (insertKV_pairwise _ _ _ hsort)
                 (insertKV_invO _ _ (ihJ _ _ _ (by assumption)) _ hinv))
        · rw [pObj] at h
          · exact absurd h (by simp)
          · simp [hb]

/-- Helper: every value the public entry point accepts satisfies the
invariant. -/
theorem pTop_inv (s : List Nat) (v : JsonV) (h : pTop s = (v, none)) : Inv v := by
  rw [pTop] at h
  repeat' split at h
  all_goals
    solve
    | simp at h
    | (simp only [Prod.mk.injEq] at h
       rw [← h.1]
       exact (pJson_inv _).1 _ _ _ (by assumption))

/-!  ### Claim C9: numbers are stored as doubles  -/

/-- Helper: the exponent-digit reader only produces double payloads. -/
theorem parseExpDigits_dbl (neg : Bool) (ip frac flen : Nat) (esign : Bool)
    (r1 : List Nat) (v : JsonV) (r : List Nat)
    (h : parseExpDigits neg ip frac flen esign r1 = .ok (v, r)) :
    ∃ q, v = jdouble q := by
  rw [parseExpDigits] at h
  split at h
  · exact absurd h (by simp)
  · simp only [Except.ok.injEq, Prod.mk.injEq] at h
    exact ⟨_, h.1.symm⟩

/-- Helper: the exponent-sign reader only produces double payloads. -/
theorem parseExpSign_dbl (neg : Bool) (ip frac flen : Nat) (s : List Nat)
    (v : JsonV) (r : List Nat)
    (h : parseExpSign neg ip frac flen s = .ok (v, r)) : ∃ q, v = jdouble q := by
  rw [parseExpSign.eq_def] at h
  split at h
  all_goals exact parseExpDigits_dbl _ _ _ _ _ _ _ _ h

/-- Helper: the exponent reader only produces double payloads. -/
theorem parseExp_dbl (neg : Bool) (ip frac flen : Nat) (s : List Nat)
    (v : JsonV) (r : List Nat)
    (h : parseExp neg ip frac flen s = .ok (v, r)) : ∃ q, v = jdouble q := by
  rw [parseExp.eq_def] at h
  split at h
  · exact parseExpSign_dbl _ _ _ _ _ _ _ h
  · exact parseExpSign_dbl _ _ _ _ _ _ _ h
  · simp only [Except.ok.injEq, Prod.mk.injEq] at h
    exact ⟨_, h.1.symm⟩

/-- Helper: the fraction reader only produces double payloads. -/
theorem parseAfterInt_dbl (neg : Bool) (ip : Nat) (s : List Nat) (v : JsonV) (r : List Nat)
    (h : parseAfterInt neg ip s = .ok (v, r)) : ∃ q, v = jdouble q := by
  rw [parseAfterInt.eq_def] at h
  split at h
  · split at h
    · exact absurd h (by simp)
    · exact parseExp_dbl _ _ _ _ _ _ _ h
  · exact parseExp_dbl _ _ _ _ _ _ _ h

/-- Helper: the number grammar only produces double payloads (there is no
separate integer path in the parser). -/
theorem parseNumberBody_dbl (s : List Nat) (v : JsonV) (r : List Nat)
    (h : parseNumberBody s = .ok (v, r)) : ∃ q, v = jdouble q := by
  have tail : ∀ neg s1, parseNumTail neg s1 = .ok (v, r) → ∃ q, v = jdouble q := by
    intro neg s1 h1
    rw [parseNumTail.eq_def] at h1
    split at h1
    · exact absurd h1 (by simp)
    · split at h1
      · exact absurd h1 (by simp)
      · exact parseAfterInt_dbl _ _ _ _ _ h1
    · split at h1
      · exact parseAfterInt_dbl _ _ _ _ _ h1
      · exact absurd h1 (by simp)
  rw [parseNumberBody.eq_def] at h
  split at h
  · exact tail _ _ h
  · exact tail _ _ h

/-- Helper: truncation toward zero of a nonnegative rational is its floor. -/
theorem ratTrunc_floor (q : ℚ) (h : 0 ≤ q) : ratTrunc q = ⌊q⌋ := by
  have hn : 0 ≤ q.num := Rat.num_nonneg.mpr h
  rw [ratTrunc, if_pos hn, Rat.floor_def]
  conv_rhs => rw [← Int.toNat_of_nonneg hn]
  exact (Int.ofNat_tdiv _ _).symm

/-- Helper: the rational denoted by the literal `3`. -/
theorem mkNum_three : mkNum false 3 0 0 false 0 = 3 := by
  rw [mkNum]
  norm_num

/-- Helper: the rational denoted by the literal `3.5`. -/
theorem mkNum_threeFive : mkNum false 3 5 1 false 0 = 7 / 2 := by
  rw [mkNum]
  norm_num

/-- Helper: truncating `3` toward zero. -/
theorem ratTrunc_three : ratTrunc (3 : ℚ) = 3 := by
  rw [ratTrunc_floor _ (by norm_num), Int.floor_eq_iff]
  norm_num

/-- Helper: truncating `3.5` toward zero. -/
theorem ratTrunc_sevenHalves : ratTrunc (7 / 2 : ℚ) = 3 := by
  rw [ratTrunc_floor _ (by norm_num), Int.floor_eq_iff]
  norm_num

/-- C9: every value the parser's number grammar accepts is stored as the
single floating-point payload (`jdouble`), `number_value` returns that
stored double and `int_value` is its truncation toward zero; concretely,
parsing `"3"` succeeds with `number_value = 3` and `int_value = 3`, and
parsing `"3.5"` succeeds with `number_value = 3.5` and `int_value = 3`
(truncation). -/
theorem claim_C9 :
    (∀ s v r, parseNumberBody s = Except.ok (v, r) →
      ∃ q, v = jdouble q ∧ number_value v = q ∧ int_value v = ratTrunc q) ∧
    ((pTop (bytes "3")).2 = none ∧
      number_value (pTop (bytes "3")).1 = 3 ∧ int_value (pTop (bytes "3")).1 = 3) ∧
    ((pTop (bytes "3.5")).2 = none ∧
      number_value (pTop (bytes "3.5")).1 = 7 / 2 ∧
      int_value (pTop (bytes "3.5")).1 = 3) := by
  have h3 : pTop (bytes "3") = (jdouble (mkNum false 3 0 0 false 0), none) := rfl
  have h35 : pTop (bytes "3.5") = (jdouble (mkNum false 3 5 1 false 0), none) := rfl
  refine ⟨?_, ?_, ?_⟩
  · intro s v r h
    obtain ⟨q, rfl⟩ := parseNumberBody_dbl _ _ _ h
    exact ⟨q, rfl, rfl, rfl⟩
  · rw [h3]
    refine ⟨rfl, ?_, ?_⟩
    · show mkNum false 3 0 0 false 0 = 3
      exact mkNum_three
    · show ratTrunc (mkNum false 3 0 0 false 0) = 3
      rw [mkNum_three]
      exact ratTrunc_three
  · rw [h35]
    refine ⟨rfl, ?_, ?_⟩
    · show mkNum false 3 5 1 false 0 = 7 / 2
      exact mkNum_threeFive
    · show ratTrunc (mkNum false 3 5 1 false 0) = 3
      rw [mkNum_threeFive]
      exact ratTrunc_sevenHalves

/-- C9 witness: the universally quantified part of C9 applied to the
concrete input `"3"`. -/
theorem claim_C9_witness :
    ∃ q, (jdouble (mkNum false 3 0 0 false 0) : JsonV) = jdouble q ∧
      number_value (jdouble (mkNum false 3 0 0 false 0)) = q ∧
      int_value (jdouble (mkNum false 3 0 0 false 0)) = ratTrunc q :=
  claim_C9.1 (bytes "3") (jdouble (mkNum false 3 0 0 false 0)) [] rfl

/-!  ### Round-trip machinery: delimiters, digits and multiplicities  -/

/-- A safe continuation after a serialized value: end of input or a
structural delimiter (`,`, `]`, `}`), exactly the contexts in which the
serializer places a value. -/
def delimOkB : List Nat → Bool
  | [] => true
  | b :: _ => b == 44 || b == 93 || b == 125

/-- Helper: the head of a delimited continuation. -/
theorem delimOkB_head (b : Nat) (t : List Nat) (h : delimOkB (b :: t) = true) :
    b = 44 ∨ b = 93 ∨ b = 125 := by
  have h2 : (b = 44 ∨ b = 93) ∨ b = 125 := by simpa [delimOkB] using h
  tauto

/-- Helper: the digit renderer ignores surplus fuel. -/
theorem natDigitsAux_congr : ∀ fuel fuel2 n : Nat, ∀ a : List Nat, n ≤ fuel → n ≤ fuel2 →
    natDigitsAux fuel n a = natDigitsAux fuel2 n a := by
  intro fuel
  induction fuel with
  | zero =>
    intro fuel2 n a h1 _
    obtain rfl := Nat.le_zero.mp h1
    cases fuel2 <;> simp [natDigitsAux]
  | succ fuel ih =>
    intro fuel2 n a h1 h2
    cases fuel2 with
    | zero =>
      obtain rfl := Nat.le_zero.mp h2
      simp [natDigitsAux]
    | succ f2 =>
      rw [natDigitsAux, natDigitsAux]
      by_cases h : n < 10
      · rw [if_pos h, if_pos h]
      · rw [if_neg h, if_neg h]
        have hlt : n / 10 < n := Nat.div_lt_self (by omega) (by omega)
        exact ih f2 (n / 10) _ (by omega) (by omega)

/-- Helper: rendering a one-digit number. -/
theorem natDigits_lt10 (n : Nat) (h : n < 10) : natDigits n = [48 + n] := by
  cases n with
  | zero => rfl
  | succ m =>
    rw [natDigits, natDigitsAux, if_pos h, Nat.mod_eq_of_lt h]

/-- Helper: rendering a multi-digit number peels the last digit. -/
theorem natDigits_step (n : Nat) (h : 10 ≤ n) :
    natDigits n = natDigits (n / 10) ++ [48 + n % 10] := by
  obtain ⟨f, rfl⟩ : ∃ f, n = f + 1 := ⟨n - 1, by omega⟩
  rw [natDigits, natDigitsAux, if_neg (by omega)]
  have hlt : (f + 1) / 10 < f + 1 := Nat.div_lt_self (by omega) (by omega)
  rw [natDigitsAux_congr f ((f + 1) / 10) ((f + 1) / 10) _ (by omega) le_rfl]
  rw [natDigitsAux_append]
  rfl

/-- Helper: every byte of a rendered number is an ASCII digit. -/
theorem natDigits_digits : ∀ n : Nat, ∀ d ∈ natDigits n, isDigitB d = true := by
  intro n
  induction n using Nat.strong_induction_on with
  | _ n ih =>
    intro d hd
    by_cases h : n < 10
    · rw [natDigits_lt10 n h] at hd
      simp only [List.mem_singleton] at hd
      subst hd
      simp [isDigitB]
      omega
    · rw [natDigits_step n (by omega)] at hd
      rcases List.mem_append.mp hd with h1 | h1
      · exact ih (n / 10) (Nat.div_lt_self (by omega) (by omega)) d h1
      · simp only [List.mem_singleton] at h1
        subst h1
        have := Nat.mod_lt n (y := 10) (by omega)
        simp [isDigitB]
        omega

/-- Helper: the leading byte of a nonzero rendered number is not `0`. -/
theorem natDigits_head : ∀ n : Nat, n ≠ 0 → ∀ d : Nat, ∀ t, natDigits n = d :: t → d ≠ 48 := by
  intro n
  induction n using Nat.strong_induction_on with
  | _ n ih =>
    intro hn d t hdt
    by_cases h : n < 10
    · rw [natDigits_lt10 n h] at hdt
      simp only [List.cons.injEq] at hdt
      omega
    · rw [natDigits_step n (by omega)] at hdt
      have hne := natDigits_ne_nil (n / 10)
      cases hq : natDigits (n / 10) with
      | nil => exact absurd hq hne
      | cons d2 t2 =>
        rw [hq, List.cons_append] at hdt
        simp only [List.cons.injEq] at hdt
        rw [hdt.1] at hq
        exact ih (n / 10) (Nat.div_lt_self (by omega) (by omega)) (by omega) d t2 hq

/-- Helper: `natOfDigits` with a running accumulator. -/
theorem natOfDigits_acc : ∀ (b : List Nat) (a : Nat),
    b.foldl (fun acc d => acc * 10 + (d - 48)) a = a * 10 ^ b.length + natOfDigits b := by
  intro b
  induction b with
  | nil => intro a; simp [natOfDigits]
  | cons d b2 ih =>
    intro a
    have hrhs : natOfDigits (d :: b2) = (0 * 10 + (d - 48)) * 10 ^ b2.length + natOfDigits b2 := by
      rw [natOfDigits, List.foldl_cons, ih]
    rw [List.foldl_cons, ih, hrhs, List.length_cons]
    ring

/-- Helper: the value of concatenated digit strings. -/
theorem natOfDigits_append (a b : List Nat) :
    natOfDigits (a ++ b) = natOfDigits a * 10 ^ b.length + natOfDigits b := by
  rw [natOfDigits, List.foldl_append, natOfDigits_acc]
  rfl

/-- Helper: leading zero bytes do not change the denoted value. -/
theorem natOfDigits_pad (j : Nat) (ds : List Nat) :
    natOfDigits (List.replicate j 48 ++ ds) = natOfDigits ds := by
  rw [natOfDigits_append]
  have hz : natOfDigits (List.replicate j 48) = 0 := by
    induction j with
    | zero => rfl
    | succ j ih =>
      rw [List.replicate_succ, natOfDigits, List.foldl_cons]
      simpa [natOfDigits] using ih
  rw [hz]
  simp

/-- Helper: reading back a rendered number. -/
theorem natOfDigits_natDigits : ∀ n : Nat, natOfDigits (natDigits n) = n := by
  intro n
  induction n using Nat.strong_induction_on with
  | _ n ih =>
    by_cases h : n < 10
    · rw [natDigits_lt10 n h]
      simp [natOfDigits]
    · rw [natDigits_step n (by omega), natOfDigits_append,
        ih (n / 10) (Nat.div_lt_self (by omega) (by omega))]
      have h2 : natOfDigits [48 + n % 10] = n % 10 := by
        simp [natOfDigits]
      rw [h2]
      simp only [List.length_singleton]
      omega

/-- Helper: the digit splitter passes over known digits. -/
theorem takeDigits_digits : ∀ ds rest : List Nat, (∀ d ∈ ds, isDigitB d = true) →
    takeDigits (ds ++ rest) = (ds ++ (takeDigits rest).1, (takeDigits rest).2) := by
  intro ds
  induction ds with
  | nil => intro rest _; simp
  | cons d ds2 ih =>
    intro rest h
    have hd : isDigitB d = true := h d (List.mem_cons_self d ds2)
    rw [List.cons_append, takeDigits, if_pos hd,
      ih rest (fun x hx => h x (List.mem_cons_of_mem d hx))]
    rfl

/-- Helper: the digit splitter stops at a delimiter. -/
theorem takeDigits_delim (rest : List Nat) (h : delimOkB rest = true) :
    takeDigits rest = ([], rest) := by
  cases rest with
  | nil => rfl
  | cons b t =>
    have hb := delimOkB_head b t h
    have hd : isDigitB b = false := by
      rcases hb with rfl | rfl | rfl <;> rfl
    rw [takeDigits, if_neg (by simp [hd])]

/-- Helper: the multiplicity counter ignores surplus fuel. -/
theorem multAux_congr : ∀ fuel fuel' p n : Nat, n ≤ fuel → n ≤ fuel' →
    multAux fuel p n = multAux fuel' p n := by
  intro fuel
  induction fuel with
  | zero =>
    intro fuel' p n h1 _
    obtain rfl := Nat.le_zero.mp h1
    cases fuel' <;> simp [multAux]
  | succ fuel ih =>
    intro fuel' p n h1 h2
    cases fuel' with
    | zero =>
      obtain rfl := Nat.le_zero.mp h2
      simp [multAux]
    | succ f2 =>
      rw [multAux, multAux]
      by_cases hc : 1 < p ∧ 0 < n ∧ p ∣ n
      · rw [if_pos hc, if_pos hc]
        have hlt : n / p < n := Nat.div_lt_self hc.2.1 hc.1
        rw [ih f2 p (n / p) (by omega) (by omega)]
      · rw [if_neg hc, if_neg hc]

/-- Helper: the multiplicity of a dividing factor steps down. -/
theorem mult_step (p n : Nat) (hp : 1 < p) (hn : 0 < n) (hd : p ∣ n) :
    mult p n = mult p (n / p) + 1 := by
  obtain ⟨f, rfl⟩ : ∃ f, n = f + 1 := ⟨n - 1, by omega⟩
  rw [mult, multAux, if_pos ⟨hp, hn, hd⟩]
  have hlt : (f + 1) / p < f + 1 := Nat.div_lt_self hn hp
  rw [multAux_congr f ((f + 1) / p) p ((f + 1) / p) (by omega) le_rfl]
  rfl

/-- Helper: the multiplicity of a non-factor is zero. -/
theorem mult_zero_of_not (p n : Nat) (h : ¬ (1 < p ∧ 0 < n ∧ p ∣ n)) : mult p n = 0 := by
  cases n with
  | zero => rfl
  | succ f => rw [mult, multAux, if_neg h]

/-- Helper: `mult p n` is the exact multiplicity of `p` in `n`. -/
theorem mult_spec : ∀ p n : Nat, 1 < p → 0 < n →
    p ^ mult p n ∣ n ∧ ¬ p ^ (mult p n + 1) ∣ n := by
  intro p n
  induction n using Nat.strong_induction_on with
  | _ n ih =>
    intro hp hn
    by_cases hd : p ∣ n
    · rw [mult_step p n hp hn hd]
      obtain ⟨m, rfl⟩ := hd
      have hp0 : 0 < p := by omega
      have hm : 0 < m := by
        rcases Nat.eq_zero_or_pos m with rfl | h2
        · simp at hn
        · exact h2
      have hdiv : p * m / p = m := Nat.mul_div_cancel_left m hp0
      rw [hdiv]
      have hmn : m < p * m := by
        calc m = 1 * m := (one_mul m).symm
        _ < p * m := (Nat.mul_lt_mul_right hm).mpr hp
      obtain ⟨ih1, ih2⟩ := ih m hmn hp hm
      constructor
      · obtain ⟨c, hc⟩ := ih1
        refine ⟨c, ?_⟩
        rw [pow_succ]
        conv_lhs => rw [hc]
        ring
      · intro hcon
        rw [pow_succ'] at hcon
        exact ih2 ((Nat.mul_dvd_mul_iff_left hp0).mp hcon)
    · rw [mult_zero_of_not p n (fun hc => hd hc.2.2)]
      constructor
      · simp
      · simpa using hd

/-- Helper: a divisor of a power of five is the five-power given by its
own multiplicity of five. -/
theorem dvd_five_pow : ∀ m N : Nat, m ∣ 5 ^ N → m ∣ 5 ^ mult 5 m := by
  intro m
  induction m using Nat.strong_induction_on with
  | _ m ih =>
    intro N hm
    have hm0 : 0 < m := Nat.pos_of_dvd_of_pos hm (by positivity)
    by_cases h1 : m = 1
    · subst h1; simp
    · obtain ⟨p, hp, hpm⟩ := Nat.exists_prime_and_dvd h1
      have hp5 : p = 5 := by
        have h2 : p ∣ 5 ^ N := hpm.trans hm
        have h3 := Nat.Prime.dvd_of_dvd_pow hp h2
        exact (Nat.prime_dvd_prime_iff_eq hp (by norm_num)).mp h3
      subst hp5
      obtain ⟨m2, rfl⟩ := hpm
      have hm2 : 0 < m2 := by
        rcases Nat.eq_zero_or_pos m2 with rfl | h2
        · simp at hm0
        · exact h2
      obtain ⟨N2, rfl⟩ : ∃ N2, N = N2 + 1 := by
        cases N with
        | zero =>
          rw [pow_zero, Nat.dvd_one] at hm
          omega
        | succ N2 => exact ⟨N2, rfl⟩
      have hm2d : m2 ∣ 5 ^ N2 := by
        rw [pow_succ'] at hm
        exact (Nat.mul_dvd_mul_iff_left (by norm_num : 0 < 5)).mp hm
      have hlt : m2 < 5 * m2 := by
        calc m2 = 1 * m2 := (one_mul m2).symm
        _ < 5 * m2 := (Nat.mul_lt_mul_right hm2).mpr (by norm_num)
      have ihm := ih m2 hlt N2 hm2d
      rw [mult_step 5 (5 * m2) (by norm_num) hm0 ⟨m2, rfl⟩,
        Nat.mul_div_cancel_left m2 (by norm_num), pow_succ']
      exact mul_dvd_mul_left 5 ihm

/-- Helper: a divisor of any power of ten divides the power of ten given
by its own multiplicities of two and five (so the serializer's exact
decimal branch applies to it). -/
theorem den_dvd_max (den N : Nat) (h : den ∣ 10 ^ N) :
    den ∣ 10 ^ max (mult 2 den) (mult 5 den) := by
  have hden0 : 0 < den := Nat.pos_of_dvd_of_pos h (by positivity)
  obtain ⟨h2a, h2a1⟩ := mult_spec 2 den (by norm_num) hden0
  obtain ⟨m, hm⟩ := h2a
  have hm0 : 0 < m := by
    rcases Nat.eq_zero_or_pos m with rfl | h2
    · rw [hm] at hden0; simp at hden0
    · exact h2
  have hmodd : ¬ 2 ∣ m := by
    rintro ⟨c, rfl⟩
    apply h2a1
    refine ⟨c, ?_⟩
    conv_lhs => rw [hm]
    ring
  have hmden : m ∣ den := ⟨2 ^ mult 2 den, by
    conv_lhs => rw [hm]
    ring⟩
  have hm10 : m ∣ 10 ^ N := dvd_trans hmden h
  have h10 : (10 : Nat) ^ N = 2 ^ N * 5 ^ N := by
    rw [show (10 : Nat) = 2 * 5 from rfl, Nat.mul_pow]
  have hcop : Nat.Coprime (2 ^ N) m :=
    Nat.Coprime.pow_left N ((Nat.Prime.coprime_iff_not_dvd Nat.prime_two).mpr hmodd)
  have hm5 : m ∣ 5 ^ N := by
    rw [h10] at hm10
    exact (Nat.Coprime.dvd_of_dvd_mul_left hcop.symm) hm10
  have hm5p : m ∣ 5 ^ mult 5 m := dvd_five_pow m N hm5
  have h5m : 5 ^ mult 5 m ∣ den := dvd_trans (mult_spec 5 m (by norm_num) hm0).1 hmden
  have hble : mult 5 m ≤ mult 5 den := by
    by_contra hgt
    apply (mult_spec 5 den (by norm_num) hden0).2
    exact dvd_trans (pow_dvd_pow 5 (by omega)) h5m
  have hfinal : den ∣ 2 ^ mult 2 den * 5 ^ mult 5 m := by
    conv_lhs => rw [hm]
    exact mul_dvd_mul_left _ hm5p
  refine dvd_trans hfinal ?_
  rw [show (10 : Nat) = 2 * 5 from rfl, Nat.mul_pow]
  exact mul_dvd_mul (pow_dvd_pow 2 (le_max_left _ _))
    (pow_dvd_pow 5 (le_trans hble (le_max_right _ _)))

/-!  ### Round-trip machinery: the number grammar  -/

/-- Helper: a delimited continuation carries no exponent marker. -/
theorem parseExp_delim (neg : Bool) (ip f fl : Nat) (rest : List Nat)
    (h : delimOkB rest = true) :
    parseExp neg ip f fl rest = .ok (jdouble (mkNum neg ip f fl false 0), rest) := by
  cases rest with
  | nil => rfl
  | cons b t => rcases delimOkB_head b t h with rfl | rfl | rfl <;> rfl

/-- Helper: a delimited continuation carries no fraction or exponent. -/
theorem parseAfterInt_delim (neg : Bool) (ip : Nat) (rest : List Nat)
    (h : delimOkB rest = true) :
    parseAfterInt neg ip rest = .ok (jdouble (mkNum neg ip 0 0 false 0), rest) := by
  cases rest with
  | nil => rfl
  | cons b t => rcases delimOkB_head b t h with rfl | rfl | rfl <;> rfl

/-- Helper: the value of an integer literal with no fraction or exponent. -/
theorem mkNum_nat (m : Nat) : mkNum false m 0 0 false 0 = (m : ℚ) := by
  rw [mkNum]
  norm_num

/-- Helper: the value of a negated integer literal. -/
theorem mkNum_negnat (m : Nat) : mkNum true m 0 0 false 0 = -(m : ℚ) := by
  rw [mkNum]
  norm_num

/-- Helper: the value of a literal with a fraction and no exponent. -/
theorem mkNum_noexp (neg : Bool) (ip fr k : Nat) :
    mkNum neg ip fr k false 0 =
      (if neg then (-1 : ℚ) else 1) * ((ip * 10 ^ k + fr : Nat) : ℚ) / ((10 ^ k : Nat) : ℚ) := by
  rw [mkNum]
  cases neg <;> push_cast <;> ring

/-- Helper: parsing a digit run hands the denoted integer part to the
fraction reader (a leading `0` only stands alone). -/
theorem parseNumTail_run (neg : Bool) (ds tail : List Nat)
    (hds : ∀ d ∈ ds, isDigitB d = true) (hne : ds ≠ [])
    (hhead : ∀ t, ds = 48 :: t → t = [])
    (htail : delimOkB tail = true ∨ ∃ t2, tail = 46 :: t2) :
    parseNumTail neg (ds ++ tail) = parseAfterInt neg (natOfDigits ds) tail := by
  cases ds with
  | nil => exact absurd rfl hne
  | cons d t =>
    have hdd := hds d (List.mem_cons_self d t)
    have htd_tail : takeDigits tail = ([], tail) := by
      rcases htail with h2 | ⟨t2, rfl⟩
      · exact takeDigits_delim tail h2
      · rfl
    have hhd_tail : headIsDigit tail = false := by
      rcases htail with h2 | ⟨t2, rfl⟩
      · cases tail with
        | nil => rfl
        | cons b t3 => rcases delimOkB_head b t3 h2 with rfl | rfl | rfl <;> rfl
      · rfl
    by_cases h48 : d = 48
    · subst h48
      obtain rfl : t = [] := hhead t rfl
      rw [show ([48] ++ tail : List Nat) = 48 :: tail from rfl]
      rw [parseNumTail]
      rw [if_neg (by simp [hhd_tail])]
      rfl
    · rw [List.cons_append, parseNumTail.eq_def]
      split
      · rename_i heq
        exact absurd heq (by simp)
      · rename_i r heq
        exfalso
        injection heq with h1 h2
        exact h48 h1
      · rename_i heq
        injection heq with h1 h2
        rw [← h1, ← h2, if_pos hdd]
        have htd : takeDigits ((d :: t) ++ tail) = (d :: t, tail) := by
          rw [takeDigits_digits (d :: t) tail hds, htd_tail]
          simp
        rw [show d :: (t ++ tail) = (d :: t) ++ tail from rfl, htd]

/-- Helper: the number grammar without a leading minus. -/
theorem parseNumberBody_cons (d : Nat) (t : List Nat) (hd : d ≠ 45) :
    parseNumberBody (d :: t) = parseNumTail false (d :: t) := by
  rw [parseNumberBody.eq_def]
  split
  · rename_i heq
    exfalso
    injection heq with h1 h2
    exact hd h1
  · rfl

/-- Helper: reading back a serialized integer. -/
theorem parseNumberBody_int (z : Int) (rest : List Nat) (h : delimOkB rest = true) :
    parseNumberBody (intBytes z ++ rest) = .ok (jdouble (z : ℚ), rest) := by
  rw [intBytes]
  by_cases hz : z < 0
  · rw [if_pos hz]
    rw [show ([45] ++ natDigits z.natAbs) ++ rest = 45 :: (natDigits z.natAbs ++ rest) by simp]
    rw [show parseNumberBody (45 :: (natDigits z.natAbs ++ rest)) =
      parseNumTail true (natDigits z.natAbs ++ rest) from rfl]
    rw [parseNumTail_run true (natDigits z.natAbs) rest (natDigits_digits _)
      (natDigits_ne_nil _)
      (fun t ht => by
        have h0 : z.natAbs = 0 := by
          by_contra hc
          exact natDigits_head z.natAbs hc 48 t ht rfl
        rw [h0] at ht
        have h2 : ([48] : List Nat) = 48 :: t := ht
        injection h2 with h3 h4
        exact h4.symm)
      (Or.inl h)]
    rw [natOfDigits_natDigits, parseAfterInt_delim true _ rest h, mkNum_negnat]
    have hza : ((z.natAbs : ℚ)) = -(z : ℚ) := by
      rw [Int.cast_natAbs, abs_of_neg hz]
      push_cast
      ring
    rw [hza, neg_neg]
  · rw [if_neg hz]
    simp only [List.nil_append]
    have hpb : parseNumberBody (natDigits z.natAbs ++ rest) =
        parseNumTail false (natDigits z.natAbs ++ rest) := by
      cases hnd : natDigits z.natAbs with
      | nil => exact absurd hnd (natDigits_ne_nil _)
      | cons d ds =>
        have hdig := natDigits_digits z.natAbs d (by rw [hnd]; exact List.mem_cons_self d ds)
        have h45 : d ≠ 45 := by
          simp [isDigitB] at hdig
          omega
        rw [List.cons_append, parseNumberBody_cons d (ds ++ rest) h45]
    rw [hpb]
    rw [parseNumTail_run false (natDigits z.natAbs) rest (natDigits_digits _)
      (natDigits_ne_nil _)
      (fun t ht => by
        have h0 : z.natAbs = 0 := by
          by_contra hc
          exact natDigits_head z.natAbs hc 48 t ht rfl
        rw [h0] at ht
        have h2 : ([48] : List Nat) = 48 :: t := ht
        injection h2 with h3 h4
        exact h4.symm)
      (Or.inl h)]
    rw [natOfDigits_natDigits, parseAfterInt_delim false _ rest h, mkNum_nat]
    have hza : ((z.natAbs : ℚ)) = (z : ℚ) := by
      rw [Int.cast_natAbs, abs_of_nonneg (not_lt.mp hz)]
    rw [hza]

/-- Helper: reading back a digit run, point, digit run. -/
theorem parseNumTail_point (neg : Bool) (I F rest : List Nat)
    (hI : ∀ d ∈ I, isDigitB d = true) (hIne : I ≠ [])
    (hIhead : ∀ t, I = 48 :: t → t = [])
    (hF : ∀ d ∈ F, isDigitB d = true) (hFne : F ≠ [])
    (h : delimOkB rest = true) :
    parseNumTail neg (I ++ (46 :: (F ++ rest))) =
      .ok (jdouble (mkNum neg (natOfDigits I) (natOfDigits F) F.length false 0), rest) := by
  rw [parseNumTail_run neg I (46 :: (F ++ rest)) hI hIne hIhead (Or.inr ⟨_, rfl⟩)]
  rw [parseAfterInt]
  have htd : takeDigits (F ++ rest) = (F, rest) := by
    rw [takeDigits_digits F rest hF, takeDigits_delim rest h]
    simp
  rw [htd]
  rw [if_neg (by simpa using hFne)]
  exact parseExp_delim neg (natOfDigits I) (natOfDigits F) F.length rest h

/-- The zero-padded digit block of `decimalBytes` (named for the
round-trip proof; definitionally the `ds` of `decimalBytes`). -/
def padDigits (num : Int) (den k : Nat) : List Nat :=
  List.replicate (k + 1 - (natDigits (num.natAbs * 10 ^ k / den)).length) 48 ++
    natDigits (num.natAbs * 10 ^ k / den)

/-- Helper: `decimalBytes` in terms of its digit block. -/
theorem decimalBytes_eq (num : Int) (den k : Nat) :
    decimalBytes num den k =
      (if num < 0 then [45] else []) ++
        (padDigits num den k).take ((padDigits num den k).length - k) ++
        (if k = 0 then []
         else 46 :: (padDigits num den k).drop ((padDigits num den k).length - k)) := rfl

/-- Helper: the digit block is all digits. -/
theorem padDigits_digits (num : Int) (den k : Nat) :
    ∀ d ∈ padDigits num den k, isDigitB d = true := by
  intro d hd
  rcases List.mem_append.mp hd with h1 | h1
  · rw [List.eq_of_mem_replicate h1]; rfl
  · exact natDigits_digits _ d h1

/-- Helper: the digit block has more than `k` digits. -/
theorem padDigits_length (num : Int) (den k : Nat) :
    k + 1 ≤ (padDigits num den k).length := by
  rw [padDigits, List.length_append, List.length_replicate]
  omega

/-- Helper: the digit block denotes the scaled quotient. -/
theorem padDigits_val (num : Int) (den k : Nat) :
    natOfDigits (padDigits num den k) = num.natAbs * 10 ^ k / den := by
  rw [padDigits, natOfDigits_pad, natOfDigits_natDigits]

/-- Helper: a rational with denominator one is its own numerator. -/
theorem ratCast_num_eq (q : ℚ) (h : q.den = 1) : ((q.num : ℚ)) = q := by
  conv_rhs => rw [← Rat.num_div_den q]
  rw [h]
  simp

/-- Helper: a nonempty prefix exposes the head of the list. -/
theorem take_head (P : List Nat) (m : Nat) (hm : 1 ≤ m) (d : Nat) (t : List Nat)
    (h : P.take m = d :: t) : ∃ t2, P = d :: t2 := by
  cases P with
  | nil => simp at h
  | cons p0 P2 =>
    obtain ⟨m2, rfl⟩ : ∃ m2, m = m2 + 1 := ⟨m - 1, by omega⟩
    rw [List.take_succ_cons] at h
    injection h with h1 h2
    exact ⟨P2, by rw [h1]⟩

/-- Helper: a leading minus routes to the negative number grammar. -/
theorem parseNumberBody_minus (t : List Nat) :
    parseNumberBody (45 :: t) = parseNumTail true t := rfl

/-- Helper: a leading digit routes to the positive number grammar. -/
theorem parseNumberBody_digits (I tail : List Nat)
    (hI : ∀ d ∈ I, isDigitB d = true) (hIne : I ≠ []) :
    parseNumberBody (I ++ tail) = parseNumTail false (I ++ tail) := by
  cases I with
  | nil => exact absurd rfl hIne
  | cons d t =>
    have hd := hI d (List.mem_cons_self d t)
    have h45 : d ≠ 45 := by
      simp [isDigitB] at hd
      omega
    rw [List.cons_append, parseNumberBody_cons d (t ++ tail) h45]

/-- Helper: the value of a positive literal with fraction, no exponent. -/
theorem mkNum_noexp_pos (ip fr k : Nat) :
    mkNum false ip fr k false 0 = ((ip * 10 ^ k + fr : Nat) : ℚ) / ((10 ^ k : Nat) : ℚ) := by
  rw [mkNum]
  norm_num

/-- Helper: the value of a negative literal with fraction, no exponent. -/
theorem mkNum_noexp_neg (ip fr k : Nat) :
    mkNum true ip fr k false 0 = -(((ip * 10 ^ k + fr : Nat) : ℚ) / ((10 ^ k : Nat) : ℚ)) := by
  rw [mkNum]
  norm_num
  ring

/-- Helper: reading back an exact decimal rendering. -/
theorem parseNumberBody_dec (num : Int) (den k : Nat) (hk : 1 ≤ k) (hdvd : den ∣ 10 ^ k)
    (hden0 : 0 < den) (rest : List Nat) (h : delimOkB rest = true) :
    parseNumberBody (decimalBytes num den k ++ rest) =
      .ok (jdouble ((num : ℚ) / (den : ℚ)), rest) := by
  have hk0 : k ≠ 0 := by omega
  have hPlen := padDigits_length num den k
  have hPdig := padDigits_digits num den k
  have hPval := padDigits_val num den k
  have hIF : (padDigits num den k).take ((padDigits num den k).length - k) ++
      (padDigits num den k).drop ((padDigits num den k).length - k) = padDigits num den k :=
    List.take_append_drop _ _
  have hIlen : ((padDigits num den k).take ((padDigits num den k).length - k)).length =
      (padDigits num den k).length - k := by
    rw [List.length_take]
    omega
  have hFlen : ((padDigits num den k).drop ((padDigits num den k).length - k)).length = k := by
    rw [List.length_drop]
    omega
  have hIdig : ∀ d ∈ (padDigits num den k).take ((padDigits num den k).length - k),
      isDigitB d = true := fun d hd => hPdig d (List.mem_of_mem_take hd)
  have hFdig : ∀ d ∈ (padDigits num den k).drop ((padDigits num den k).length - k),
      isDigitB d = true := fun d hd => hPdig d (List.mem_of_mem_drop hd)
  have hIne : (padDigits num den k).take ((padDigits num den k).length - k) ≠ [] := by
    intro hc
    have h2 := congrArg List.length hc
    rw [hIlen] at h2
    simp at h2
    omega
  have hFne : (padDigits num den k).drop ((padDigits num den k).length - k) ≠ [] := by
    intro hc
    have h2 := congrArg List.length hc
    rw [hFlen] at h2
    simp at h2
    omega
  have hPhead : ∀ t2, padDigits num den k = 48 :: t2 → (padDigits num den k).length = k + 1 := by
    intro t2 h48
    by_cases hJ : k + 1 - (natDigits (num.natAbs * 10 ^ k / den)).length = 0
    · have hP : padDigits num den k = natDigits (num.natAbs * 10 ^ k / den) := by
        rw [padDigits, hJ]
        simp
      have hn0 : num.natAbs * 10 ^ k / den = 0 := by
        by_contra hc
        exact natDigits_head _ hc 48 t2 (by rw [← hP]; exact h48) rfl
      exfalso
      have hone : (natDigits (num.natAbs * 10 ^ k / den)).length = 1 := by
        rw [hn0]
        rfl
      omega
    · rw [padDigits, List.length_append, List.length_replicate]
      have := natDigits_length_pos (num.natAbs * 10 ^ k / den)
      omega
  have hIhead : ∀ t, (padDigits num den k).take ((padDigits num den k).length - k) = 48 :: t →
      t = [] := by
    intro t ht
    obtain ⟨t2, hP48⟩ := take_head (padDigits num den k) _ (by omega) 48 t ht
    have hlen1 := hPhead t2 hP48
    have h2 := congrArg List.length ht
    rw [hIlen] at h2
    simp at h2
    have h3 : t.length = 0 := by omega
    exact List.eq_nil_of_length_eq_zero h3
  have hsplit : natOfDigits ((padDigits num den k).take ((padDigits num den k).length - k)) *
      10 ^ k + natOfDigits ((padDigits num den k).drop ((padDigits num den k).length - k)) =
      num.natAbs * 10 ^ k / den := by
    have happ := natOfDigits_append
      ((padDigits num den k).take ((padDigits num den k).length - k))
      ((padDigits num den k).drop ((padDigits num den k).length - k))
    rw [hFlen, hIF, hPval] at happ
    exact happ.symm
  have hval2 : ∀ a b : Nat, a * 10 ^ k + b = num.natAbs * 10 ^ k / den →
      ((a * 10 ^ k + b : Nat) : ℚ) / ((10 ^ k : Nat) : ℚ) =
        ((num.natAbs : ℚ) / (den : ℚ)) := by
    intro a b hab
    rw [hab]
    have hnd : num.natAbs * 10 ^ k / den * den = num.natAbs * 10 ^ k :=
      Nat.div_mul_cancel (hdvd.mul_left num.natAbs)
    rw [div_eq_div_iff (by positivity) (by exact_mod_cast hden0.ne')]
    exact_mod_cast congrArg (fun x : Nat => (x : ℚ)) hnd
  rw [decimalBytes_eq, if_neg hk0]
  by_cases hneg : num < 0
  · rw [if_pos hneg]
    simp only [List.append_assoc, List.singleton_append, List.cons_append, List.nil_append]
    rw [parseNumberBody_minus]
    rw [parseNumTail_point true _ _ rest hIdig hIne hIhead hFdig hFne h]
    rw [hFlen, mkNum_noexp_neg, hval2 _ _ hsplit]
    rw [show -(((num.natAbs : ℚ)) / ((den : Nat) : ℚ)) = ((num : ℚ)) / ((den : Nat) : ℚ) by
      rw [Int.cast_natAbs, abs_of_neg hneg]
      push_cast
      ring]
  · rw [if_neg hneg]
    simp only [List.append_assoc, List.nil_append, List.cons_append]
    rw [parseNumberBody_digits _ (46 :: ((padDigits num den k).drop
      ((padDigits num den k).length - k) ++ rest)) hIdig hIne]
    rw [parseNumTail_point false _ _ rest hIdig hIne hIhead hFdig hFne h]
    rw [hFlen, mkNum_noexp_pos, hval2 _ _ hsplit]
    rw [show ((num.natAbs : ℚ)) = ((num : ℚ)) by
      rw [Int.cast_natAbs, abs_of_nonneg (not_lt.mp hneg)]]

/-- Helper: reading back a serialized number whose denominator divides a
power of ten (every parser-produced number). -/
theorem dumpNumber_rt (q : ℚ) (hq : ∃ N, q.den ∣ 10 ^ N) (rest : List Nat)
    (h : delimOkB rest = true) :
    parseNumberBody (dumpNumber q ++ rest) = .ok (jdouble q, rest) := by
  obtain ⟨N, hN⟩ := hq
  rw [dumpNumber]
  by_cases h1 : q.den = 1 ∧ -(2 ^ 63) ≤ q.num ∧ q.num < 2 ^ 63
  · rw [if_pos h1, parseNumberBody_int q.num rest h, ratCast_num_eq q h1.1]
  · rw [if_neg h1]
    have hkd := den_dvd_max q.den N hN
    rw [if_pos hkd]
    by_cases hkz : max (mult 2 q.den) (mult 5 q.den) = 0
    · have hden1 : q.den = 1 := by
        rw [hkz, pow_zero, Nat.dvd_one] at hkd
        exact hkd
      have hL := natDigits_length_pos (q.num.natAbs)
      have hdb : decimalBytes q.num q.den (max (mult 2 q.den) (mult 5 q.den)) =
          intBytes q.num := by
        rw [hkz, hden1, decimalBytes, intBytes]
        simp [Nat.sub_eq_zero_of_le hL]
      rw [hdb, parseNumberBody_int q.num rest h, ratCast_num_eq q hden1]
    · rw [parseNumberBody_dec q.num q.den _ (by omega) hkd
        (Nat.pos_of_ne_zero q.den_nz) rest h]
      rw [Rat.num_div_den q]

/-!  ### Round-trip machinery: strings  -/

/-- Helper: hex digits read back their value. -/
theorem hexVal_hexDigitB (n : Nat) (h : n < 16) : hexVal (hexDigitB n) = some n := by
  rw [hexDigitB]
  by_cases h10 : n < 10
  · rw [if_pos h10, hexVal, if_pos (by omega)]
    congr 1
    omega
  · rw [if_neg h10, hexVal, if_neg (by omega), if_pos (by omega)]
    congr 1
    omega

/-- Helper: the emitted `\u00XX` hex quadruple reads back the byte. -/
theorem hex4_esc (b : Nat) (hb : b < 256) :
    hex4 48 48 (hexDigitB (b / 16)) (hexDigitB (b % 16)) = some b := by
  have h2 : hexVal (hexDigitB (b / 16)) = some (b / 16) := hexVal_hexDigitB _ (by omega)
  have h3 : hexVal (hexDigitB (b % 16)) = some (b % 16) := hexVal_hexDigitB _ (by omega)
  rw [hex4]
  simp [h2, h3, show hexVal 48 = some 0 from rfl]
  omega

/-- Helper: the named escapes read back their bytes. -/
theorem parseEscape_named (f : Nat) (e c : Nat) (X : List Nat)
    (he : (e = 98 ∧ c = 8) ∨ (e = 102 ∧ c = 12) ∨ (e = 110 ∧ c = 10) ∨
      (e = 114 ∧ c = 13) ∨ (e = 116 ∧ c = 9) ∨ (e = 34 ∧ c = 34) ∨ (e = 92 ∧ c = 92)) :
    parseEscape (f + 1) (e :: X) =
      (parseStringBody f X).map (fun p => (c :: p.1, p.2)) := by
  rcases he with ⟨rfl, rfl⟩ | ⟨rfl, rfl⟩ | ⟨rfl, rfl⟩ | ⟨rfl, rfl⟩ | ⟨rfl, rfl⟩ |
    ⟨rfl, rfl⟩ | ⟨rfl, rfl⟩ <;> rfl

/-- Helper: reading back a non-surrogate unicode escape. -/
theorem parseU_ok (f cp h1 h2 h3 h4 : Nat) (X : List Nat)
    (hhex : hex4 h1 h2 h3 h4 = some cp) (hns : ¬(55296 ≤ cp ∧ cp ≤ 56319)) :
    parseU (f + 1) (h1 :: h2 :: h3 :: h4 :: X) =
      (parseStringBody f X).map (fun p => (encode_utf8 cp ++ p.1, p.2)) := by
  rw [parseU]
  simp only [hhex]
  rw [if_neg hns]

/-- Helper: round-trip step for a two-byte named escape. -/
theorem parseStringBody_rt_step (b e : Nat) (s2 rest : List Nat) (fuel : Nat)
    (hesc : escapeByte b = [92, e])
    (hmap : ∀ f (X : List Nat), parseEscape (f + 1) (e :: X) =
      (parseStringBody f X).map (fun p => (b :: p.1, p.2)))
    (hfuel : (escapeBytes (b :: s2)).length < fuel)
    (ih : ∀ fuel2 rest2, (escapeBytes s2).length < fuel2 →
      parseStringBody fuel2 (escapeBytes s2 ++ 34 :: rest2) = .ok (s2, rest2)) :
    parseStringBody fuel (escapeBytes (b :: s2) ++ 34 :: rest) = .ok (b :: s2, rest) := by
  have hcons : escapeBytes (b :: s2) = escapeByte b ++ escapeBytes s2 := rfl
  rw [hcons, hesc] at hfuel ⊢
  simp only [List.length_append, List.length_cons, List.length_nil] at hfuel
  obtain ⟨f, rfl⟩ : ∃ f, fuel = f + 1 + 1 := ⟨fuel - 2, by omega⟩
  simp only [List.cons_append, List.nil_append]
  rw [show parseStringBody (f + 1 + 1) (92 :: (e :: (escapeBytes s2 ++ 34 :: rest))) =
    parseEscape (f + 1) (e :: (escapeBytes s2 ++ 34 :: rest)) from rfl]
  rw [hmap f _, ih f rest (by omega)]
  rfl

/-- Helper: reading back an escaped string body up to its closing quote. -/
theorem parseStringBody_rt : ∀ (s : List Nat) (fuel : Nat) (rest : List Nat),
    (escapeBytes s).length < fuel →
    parseStringBody fuel (escapeBytes s ++ 34 :: rest) = .ok (s, rest) := by
  intro s
  induction s with
  | nil =>
    intro fuel rest hfuel
    obtain ⟨f, rfl⟩ : ∃ f, fuel = f + 1 := ⟨fuel - 1, by omega⟩
    rfl
  | cons b s2 ih =>
    intro fuel rest hfuel
    by_cases hb : b = 34 ∨ b = 92 ∨ b = 8 ∨ b = 12 ∨ b = 10 ∨ b = 13 ∨ b = 9
    · rcases hb with rfl | rfl | rfl | rfl | rfl | rfl | rfl <;>
        exact parseStringBody_rt_step _ _ s2 rest fuel rfl
          (fun f X => parseEscape_named f _ _ X (by tauto)) hfuel ih
    · push_neg at hb
      obtain ⟨hb34, hb92, hb8, hb12, hb10, hb13, hb9⟩ := hb
      by_cases hlt : b < 32
      · have hesc : escapeByte b =
            [92, 117, 48, 48, hexDigitB (b / 16), hexDigitB (b % 16)] := by
          rw [escapeByte, if_neg hb34, if_neg hb92, if_neg hb8, if_neg hb12,
            if_neg hb10, if_neg hb13, if_neg hb9, if_pos hlt]
        have hcons : escapeBytes (b :: s2) = 92 :: 117 :: 48 :: 48 ::
            hexDigitB (b / 16) :: hexDigitB (b % 16) :: escapeBytes s2 := by
          rw [show escapeBytes (b :: s2) = escapeByte b ++ escapeBytes s2 from rfl, hesc]
          rfl
        rw [hcons] at hfuel ⊢
        simp only [List.length_cons] at hfuel
        obtain ⟨f, rfl⟩ : ∃ f, fuel = f + 1 + 1 + 1 := ⟨fuel - 3, by omega⟩
        simp only [List.cons_append]
        rw [show parseStringBody (f + 1 + 1 + 1) (92 :: (117 :: (48 :: 48 ::
            hexDigitB (b / 16) :: hexDigitB (b % 16) :: (escapeBytes s2 ++ 34 :: rest)))) =
          parseU (f + 1) (48 :: 48 :: hexDigitB (b / 16) :: hexDigitB (b % 16) ::
            (escapeBytes s2 ++ 34 :: rest)) from rfl]
        rw [parseU_ok f b 48 48 _ _ _ (hex4_esc b (by omega)) (by omega)]
        rw [ih f rest (by omega)]
        have henc : encode_utf8 b = [b] := by rw [encode_utf8, if_pos (by omega)]
        simp [Except.map, henc]
      · have hesc : escapeByte b = [b] := by
          rw [escapeByte, if_neg hb34, if_neg hb92, if_neg hb8, if_neg hb12,
            if_neg hb10, if_neg hb13, if_neg hb9, if_neg hlt]
        have hcons : escapeBytes (b :: s2) = b :: escapeBytes s2 := by
          rw [show escapeBytes (b :: s2) = escapeByte b ++ escapeBytes s2 from rfl, hesc]
          rfl
        rw [hcons] at hfuel ⊢
        simp only [List.length_cons] at hfuel
        obtain ⟨f, rfl⟩ : ∃ f, fuel = f + 1 := ⟨fuel - 1, by omega⟩
        rw [List.cons_append, parseStringBody, if_neg (by simpa using hb34),
          if_neg (by simpa using hb92), if_neg (by omega)]
        rw [ih f rest (by omega)]
        rfl

/-!  ### Round-trip machinery: heads, literals and insertion  -/

/-- Helper: the literal checker accepts its own bytes. -/
theorem expectBytes_self : ∀ (es rest : List Nat) (v : JsonV),
    expectBytes es (es ++ rest) v = .ok (v, rest) := by
  intro es
  induction es with
  | nil => intro rest v; rfl
  | cons e es2 ih =>
    intro rest v
    rw [List.cons_append, expectBytes, if_pos rfl]
    exact ih rest v

/-- Helper: a serialized integer starts with a minus or a digit. -/
theorem intBytes_head (z : Int) :
    ∃ b t, intBytes z = b :: t ∧ (b = 45 ∨ isDigitB b = true) := by
  rw [intBytes]
  by_cases hz : z < 0
  · rw [if_pos hz]
    exact ⟨45, _, rfl, Or.inl rfl⟩
  · rw [if_neg hz]
    cases hnd : natDigits z.natAbs with
    | nil => exact absurd hnd (natDigits_ne_nil _)
    | cons d t =>
      exact ⟨d, t, rfl,
        Or.inr (natDigits_digits _ d (by rw [hnd]; exact List.mem_cons_self d t))⟩

/-- Helper: a serialized decimal starts with a minus or a digit. -/
theorem decimalBytes_head (num : Int) (den k : Nat) :
    ∃ b t, decimalBytes num den k = b :: t ∧ (b = 45 ∨ isDigitB b = true) := by
  rw [decimalBytes_eq]
  by_cases hz : num < 0
  · rw [if_pos hz]
    refine ⟨45, List.take ((padDigits num den k).length - k) (padDigits num den k) ++
      (if k = 0 then []
       else 46 :: List.drop ((padDigits num den k).length - k) (padDigits num den k)),
      ?_, Or.inl rfl⟩
    simp [List.append_assoc]
  · rw [if_neg hz]
    have hPlen := padDigits_length num den k
    cases hP : padDigits num den k with
    | nil =>
      rw [hP] at hPlen
      simp at hPlen
    | cons p0 P2 =>
      obtain ⟨m, hmeq⟩ : ∃ m, (p0 :: P2).length - k = m + 1 := by
        rw [hP] at hPlen
        refine ⟨(p0 :: P2).length - k - 1, ?_⟩
        simp at hPlen ⊢
        omega
      rw [hmeq, List.take_succ_cons]
      refine ⟨p0, List.take m P2 ++
        (if k = 0 then [] else 46 :: List.drop (m + 1) (p0 :: P2)), ?_, Or.inr ?_⟩
      · simp
      · exact padDigits_digits num den k p0 (by rw [hP]; exact List.mem_cons_self p0 P2)

/-- Helper: a serialized number starts with a minus or a digit. -/
theorem dumpNumber_head (q : ℚ) :
    ∃ b t, dumpNumber q = b :: t ∧ (b = 45 ∨ isDigitB b = true) := by
  rw [dumpNumber]
  by_cases h1 : q.den = 1 ∧ -(2 ^ 63) ≤ q.num ∧ q.num < 2 ^ 63
  · rw [if_pos h1]
    exact intBytes_head q.num
  · rw [if_neg h1]
    by_cases h2 : q.den ∣ 10 ^ max (mult 2 q.den) (mult 5 q.den)
    · rw [if_pos h2]
      exact decimalBytes_head _ _ _
    · rw [if_neg h2]
      exact decimalBytes_head _ _ _

/-- Helper: a minus or digit byte is not whitespace. -/
theorem numHead_not_ws (b : Nat) (hb : b = 45 ∨ isDigitB b = true) : isWsB b = false := by
  rcases hb with rfl | hb
  · rfl
  · simp [isDigitB] at hb
    simp [isWsB]
    omega

/-- Helper: whitespace skipping stops at a non-whitespace head. -/
theorem skipWs_nonws (b : Nat) (t : List Nat) (h : isWsB b = false) :
    skipWs (b :: t) = b :: t := by
  rw [skipWs, if_neg (by simp [h])]

/-- Helper: the head byte of any serialized value is not whitespace and
not a closing delimiter. -/
theorem dumpB_head_spec (v : JsonV) :
    ∃ b t, dumpB v = b :: t ∧ isWsB b = false ∧ b ≠ 93 ∧ b ≠ 125 ∧ b ≠ 44 := by
  cases v with
  | jnull =>
    exact ⟨110, [117, 108, 108], by rw [dumpB], rfl, by omega, by omega, by omega⟩
  | jbool x =>
    cases x with
    | false =>
      exact ⟨102, [97, 108, 115, 101], by rw [dumpB], rfl, by omega, by omega, by omega⟩
    | true =>
      exact ⟨116, [114, 117, 101], by rw [dumpB], rfl, by omega, by omega, by omega⟩
  | jint n =>
    obtain ⟨b, t, hbt, hb⟩ := intBytes_head n
    refine ⟨b, t, by rw [dumpB]; exact hbt, numHead_not_ws b hb, ?_, ?_, ?_⟩ <;>
      (rcases hb with rfl | hb
       · omega
       · simp [isDigitB] at hb
         omega)
  | jdouble q =>
    obtain ⟨b, t, hbt, hb⟩ := dumpNumber_head q
    refine ⟨b, t, by rw [dumpB]; exact hbt, numHead_not_ws b hb, ?_, ?_, ?_⟩ <;>
      (rcases hb with rfl | hb
       · omega
       · simp [isDigitB] at hb
         omega)
  | jstring s =>
    exact ⟨34, escapeBytes s ++ [34], by rw [dumpB], rfl, by omega, by omega, by omega⟩
  | jarray xs =>
    exact ⟨91, dumpItems xs ++ [93], by rw [dumpB], rfl, by omega, by omega, by omega⟩
  | jobject xs =>
    exact ⟨123, dumpEntries xs ++ [125], by rw [dumpB], rfl, by omega, by omega, by omega⟩

/-- Helper: every serialized value is nonempty. -/
theorem dumpB_length_pos (v : JsonV) : 1 ≤ (dumpB v).length := by
  obtain ⟨b, t, hbt, _⟩ := dumpB_head_spec v
  rw [hbt]
  simp

/-- Helper: the delimiter after an array element. -/
theorem delim_items (xs : List JsonV) (rest : List Nat) :
    delimOkB (dumpItemsSep xs ++ 93 :: rest) = true := by
  cases xs with
  | nil => rw [dumpItemsSep]; rfl
  | cons y ys => rw [dumpItemsSep]; rfl

/-- Helper: the delimiter after an object member. -/
theorem delim_entries (xs : List (List Nat × JsonV)) (rest : List Nat) :
    delimOkB (dumpEntriesSep xs ++ 125 :: rest) = true := by
  cases xs with
  | nil => rw [dumpEntriesSep]; rfl
  | cons y ys =>
    obtain ⟨k, v⟩ := y
    rw [dumpEntriesSep]
    rfl

/-- Helper: inserting a key above every key of the accumulator appends. -/
theorem insertKV_append (k : List Nat) (v : JsonV) :
    ∀ acc, (∀ p ∈ acc, bytesLt p.1 k = true) → insertKV k v acc = acc ++ [(k, v)] := by
  intro acc
  induction acc with
  | nil => intro _; rfl
  | cons q rest ih =>
    obtain ⟨k2, v2⟩ := q
    intro h
    have hk2 : bytesLt k2 k = true := h (k2, v2) (List.mem_cons_self _ _)
    rw [insertKV]
    rw [if_neg (by simp [bytesLt_asym k2 k hk2]), if_pos hk2]
    rw [ih (fun p hp => h p (List.mem_cons_of_mem _ hp))]
    rfl

/-- Helper: every value equals itself under the comparator equality. -/
theorem jeq_refl (v : JsonV) : jeq v v = true := by
  have hirr : jless v v = false := by
    by_cases h : jless v v = true
    · have := jless_asym v v h
      rw [h] at this
      exact absurd this (by simp)
    · simpa using h
  exact (jeq_iff v v).mpr ⟨hirr, hirr⟩

/-!  ### Round-trip machinery: parser dispatch steps  -/

/-- Helper: the value parser at an opening bracket. -/
theorem pJson_91 (fuel : Nat) (t : List Nat) :
    pJson (fuel + 1) (91 :: t) =
      (match skipWs t with
       | 93 :: r => .ok (jarray [], r)
       | s1 => pArr fuel s1 []) := rfl

/-- Helper: the value parser at an opening brace. -/
theorem pJson_123 (fuel : Nat) (t : List Nat) :
    pJson (fuel + 1) (123 :: t) =
      (match skipWs t with
       | 125 :: r => .ok (jobject [], r)
       | s1 => pObj fuel s1 []) := rfl

/-- Helper: the value parser at an opening quote. -/
theorem pJson_34 (fuel : Nat) (t : List Nat) :
    pJson (fuel + 1) (34 :: t) =
      (parseStringBody (t.length + 1) t).map (fun p => (jstring p.1, p.2)) := rfl

/-- Helper: the value parser at a minus or digit. -/
theorem pJson_num (fuel : Nat) (b : Nat) (t : List Nat) (hb : b = 45 ∨ isDigitB b = true) :
    pJson (fuel + 1) (b :: t) = parseNumberBody (b :: t) := by
  have hws : isWsB b = false := numHead_not_ws b hb
  rw [pJson, skipWs_nonws b t hws]
  split
  all_goals
    solve
    | (rename_i heq
       exact List.noConfusion heq)
    | (rename_i heq
       exfalso
       injection heq with h1 h2
       subst h1
       rcases hb with hb | hb
       · omega
       · simp [isDigitB] at hb)
    | (rename_i heq
       injection heq with h1 h2
       subst h1
       subst h2
       rw [if_pos hb])

/-- Helper: the value parser descends into a nonempty array body. -/
theorem pJson_91_arr (fuel : Nat) (t : List Nat) (b : Nat) (t2 : List Nat)
    (hsk : skipWs t = b :: t2) (h93 : b ≠ 93) :
    pJson (fuel + 1) (91 :: t) = pArr fuel (b :: t2) [] := by
  rw [pJson_91, hsk]
  split
  all_goals
    solve
    | rfl
    | (rename_i r heq
       injection heq with h1 h2
       exact absurd h1 h93)

/-- Helper: the value parser descends into a nonempty object body. -/
theorem pJson_123_obj (fuel : Nat) (t : List Nat) (b : Nat) (t2 : List Nat)
    (hsk : skipWs t = b :: t2) (h125 : b ≠ 125) :
    pJson (fuel + 1) (123 :: t) = pObj fuel (b :: t2) [] := by
  rw [pJson_123, hsk]
  split
  all_goals
    solve
    | rfl
    | (rename_i r heq
       injection heq with h1 h2
       exact absurd h1 h125)

/-- Helper: one array loop step ending at a closing bracket. -/
theorem pArr_step_close (fuel : Nat) (s : List Nat) (acc : List JsonV) (v : JsonV)
    (r2 : List Nat) (h : pJson fuel s = .ok (v, 93 :: r2)) :
    pArr (fuel + 1) s acc = .ok (jarray (acc ++ [v]), r2) := by
  rw [pArr, h]
  rfl

/-- Helper: one array loop step continuing past a comma. -/
theorem pArr_step_comma (fuel : Nat) (s : List Nat) (acc : List JsonV) (v : JsonV)
    (r2 : List Nat) (h : pJson fuel s = .ok (v, 44 :: r2)) :
    pArr (fuel + 1) s acc = pArr fuel r2 (acc ++ [v]) := by
  rw [pArr, h]
  rfl

/-- Helper: one object loop step past its key and colon. -/
theorem pObj_key (fuel : Nat) (r r2 : List Nat) (acc : List (List Nat × JsonV))
    (k : List Nat) (hstr : parseStringBody (r.length + 1) r = .ok (k, 58 :: r2)) :
    pObj (fuel + 1) (34 :: r) acc =
      (match pJson fuel r2 with
       | .error e => .error e
       | .ok (v, r3) =>
         match skipWs r3 with
         | 44 :: r4 => pObj fuel (skipWs r4) (insertKV k v acc)
         | 125 :: r4 => .ok (jobject (insertKV k v acc), r4)
         | r5 => .error (r5.length, "expected comma or closing brace in object")) := by
  rw [pObj, hstr]
  rfl

/-- Helper: one object loop step ending at a closing brace. -/
theorem pObj_step_close (fuel : Nat) (r r2 : List Nat) (acc : List (List Nat × JsonV))
    (k : List Nat) (v : JsonV) (r4 : List Nat)
    (hstr : parseStringBody (r.length + 1) r = .ok (k, 58 :: r2))
    (hval : pJson fuel r2 = .ok (v, 125 :: r4)) :
    pObj (fuel + 1) (34 :: r) acc = .ok (jobject (insertKV k v acc), r4) := by
  rw [pObj_key fuel r r2 acc k hstr, hval]
  rfl

/-- Helper: one object loop step continuing past a comma. -/
theorem pObj_step_comma (fuel : Nat) (r r2 : List Nat) (acc : List (List Nat × JsonV))
    (k : List Nat) (v : JsonV) (r4 : List Nat)
    (hstr : parseStringBody (r.length + 1) r = .ok (k, 58 :: r2))
    (hval : pJson fuel r2 = .ok (v, 44 :: r4)) :
    pObj (fuel + 1) (34 :: r) acc = pObj fuel (skipWs r4) (insertKV k v acc) := by
  rw [pObj_key fuel r r2 acc k hstr, hval]
  rfl

/-- Helper: keys of a sorted accumulator precede a key inserted from the
sorted tail. -/
theorem pairwise_acc_head (acc : List (List Nat × JsonV)) (k : List Nat) (v : JsonV)
    (xs : List (List Nat × JsonV)) (hp : (acc ++ (k, v) :: xs).Pairwise keyLt) :
    ∀ p ∈ acc, bytesLt p.1 k = true :=
  fun p hp2 => (List.pairwise_append.mp hp).2.2 p hp2 (k, v) (List.mem_cons_self _ _)

/-- Helper: the serializer/parser round trip, jointly for values, array
tails and object tails, by strong induction on size. -/
theorem rt_all : ∀ N : Nat,
    (∀ v : JsonV, sizeOf v ≤ N → Inv v → ∀ fuel rest, (dumpB v).length ≤ fuel →
      delimOkB rest = true → pJson (fuel + 1) (dumpB v ++ rest) = .ok (v, rest)) ∧
    (∀ xs : List JsonV, sizeOf xs ≤ N → InvL xs → xs ≠ [] →
      ∀ (acc : List JsonV) fuel rest, (dumpItems xs).length + 1 ≤ fuel →
        delimOkB rest = true →
        pArr (fuel + 1) (dumpItems xs ++ 93 :: rest) acc = .ok (jarray (acc ++ xs), rest)) ∧
    (∀ xs : List (List Nat × JsonV), sizeOf xs ≤ N → InvO xs → xs ≠ [] →
      ∀ (acc : List (List Nat × JsonV)) fuel rest, (dumpEntries xs).length + 1 ≤ fuel →
        (acc ++ xs).Pairwise keyLt →
        pObj (fuel + 1) (dumpEntries xs ++ 125 :: rest) acc =
          .ok (jobject (acc ++ xs), rest)) := by
  intro N
  induction N using Nat.strong_induction_on with
  | _ N ih =>
  refine ⟨?_, ?_, ?_⟩
  · -- values
    intro v hsz hinv fuel rest hfuel hrest
    cases v with
    | jnull =>
      rw [dumpB]
      rw [show pJson (fuel + 1) ([110, 117, 108, 108] ++ rest) =
        expectBytes [117, 108, 108] ([117, 108, 108] ++ rest) jnull from rfl]
      exact expectBytes_self [117, 108, 108] rest jnull
    | jbool x =>
      cases x with
      | true =>
        rw [dumpB]
        rw [show pJson (fuel + 1) ([116, 114, 117, 101] ++ rest) =
          expectBytes [114, 117, 101] ([114, 117, 101] ++ rest) (jbool true) from rfl]
        exact expectBytes_self [114, 117, 101] rest (jbool true)
      | false =>
        rw [dumpB]
        rw [show pJson (fuel + 1) ([102, 97, 108, 115, 101] ++ rest) =
          expectBytes [97, 108, 115, 101] ([97, 108, 115, 101] ++ rest) (jbool false) from rfl]
        exact expectBytes_self [97, 108, 115, 101] rest (jbool false)
    | jint n => cases hinv
    | jdouble q =>
      have hden : ∃ M, q.den ∣ 10 ^ M := by
        cases hinv with
        | dbl _ h => exact h
      rw [dumpB]
      obtain ⟨b, t, hbt, hb⟩ := dumpNumber_head q
      rw [hbt, List.cons_append, pJson_num fuel b (t ++ rest) hb, ← List.cons_append, ← hbt]
      exact dumpNumber_rt q hden rest hrest
    | jstring s =>
      rw [dumpB]
      simp only [List.cons_append, List.append_assoc, List.singleton_append,
        List.nil_append]
      rw [pJson_34]
      rw [parseStringBody_rt s _ rest (by simp [List.length_append]; omega)]
      rfl
    | jarray xs =>
      cases xs with
      | nil =>
        rw [dumpB, dumpItems]
        rw [show (91 :: (([] : List Nat) ++ [93])) ++ rest = 91 :: 93 :: rest by simp]
        rw [pJson_91]
        rfl
      | cons x xs2 =>
        have hl : InvL (x :: xs2) := by
          cases hinv with
          | arr _ h => exact h
        rw [dumpB] at hfuel ⊢
        simp only [List.cons_append, List.append_assoc, List.singleton_append,
          List.nil_append, List.length_cons, List.length_append] at hfuel ⊢
        obtain ⟨b, t, hbt, hws, h93, _, _⟩ := dumpB_head_spec x
        have hcons : dumpItems (x :: xs2) ++ 93 :: rest =
            b :: (t ++ (dumpItemsSep xs2 ++ 93 :: rest)) := by
          rw [dumpItems, hbt]
          simp
        have hsk : skipWs (dumpItems (x :: xs2) ++ 93 :: rest) =
            b :: (t ++ (dumpItemsSep xs2 ++ 93 :: rest)) := by
          rw [hcons]
          exact skipWs_nonws b _ hws
        rw [pJson_91_arr fuel _ b _ hsk h93, ← hcons]
        have hlp := dumpB_length_pos x
        obtain ⟨g, rfl⟩ : ∃ g, fuel = g + 1 := ⟨fuel - 1, by
          rw [dumpItems] at hfuel
          simp [List.length_append] at hfuel
          omega⟩
        have hszlt : sizeOf (x :: xs2) < N := by
          simp at hsz ⊢
          omega
        have harith : (dumpItems (x :: xs2)).length + 1 ≤ g := by
          omega
        exact (ih (sizeOf (x :: xs2)) hszlt).2.1 (x :: xs2) le_rfl hl (by simp)
          [] g rest harith hrest
    | jobject xs =>
      cases xs with
      | nil =>
        rw [dumpB, dumpEntries]
        rw [show (123 :: (([] : List (Nat)) ++ [125])) ++ rest = 123 :: 125 :: rest by simp]
        rw [pJson_123]
        rfl
      | cons e xs2 =>
        obtain ⟨k, v⟩ := e
        have hl : InvO ((k, v) :: xs2) := by
          cases hinv with
          | obj _ _ h => exact h
        have hp : ((k, v) :: xs2).Pairwise keyLt := by
          cases hinv with
          | obj _ h _ => exact h
        rw [dumpB] at hfuel ⊢
        simp only [List.cons_append, List.append_assoc, List.singleton_append,
          List.nil_append, List.length_cons, List.length_append] at hfuel ⊢
        have hcons : dumpEntries ((k, v) :: xs2) ++ 125 :: rest =
            34 :: ((escapeBytes k ++ (34 :: (58 :: dumpB v))) ++
              (dumpEntriesSep xs2 ++ 125 :: rest)) := by
          rw [dumpEntries, dumpKVB]
          simp
        have hsk : skipWs (dumpEntries ((k, v) :: xs2) ++ 125 :: rest) =
            34 :: ((escapeBytes k ++ (34 :: (58 :: dumpB v))) ++
              (dumpEntriesSep xs2 ++ 125 :: rest)) := by
          rw [hcons]
          exact skipWs_nonws 34 _ rfl
        rw [pJson_123_obj fuel _ 34 _ hsk (by omega), ← hcons]
        obtain ⟨g, rfl⟩ : ∃ g, fuel = g + 1 := ⟨fuel - 1, by
          rw [dumpEntries] at hfuel
          simp [List.length_append] at hfuel
          omega⟩
        have hszlt : sizeOf ((k, v) :: xs2) < N := by
          simp at hsz ⊢
          omega
        have harith : (dumpEntries ((k, v) :: xs2)).length + 1 ≤ g := by
          omega
        exact (ih (sizeOf ((k, v) :: xs2)) hszlt).2.2 ((k, v) :: xs2) le_rfl hl (by simp)
          [] g rest harith (by simpa using hp)
  · -- array tails
    intro xs hsz hinvl hne acc fuel rest hfuel hrest
    cases xs with
    | nil => exact absurd rfl hne
    | cons x xs2 =>
      have hxInv : Inv x := by
        cases hinvl with
        | cons _ _ h _ => exact h
      have hxsInv : InvL xs2 := by
        cases hinvl with
        | cons _ _ _ h => exact h
      have hlp := dumpB_length_pos x
      rw [dumpItems] at hfuel ⊢
      simp only [List.length_append] at hfuel
      obtain ⟨g, rfl⟩ : ∃ g, fuel = g + 1 := ⟨fuel - 1, by omega⟩
      have hszx : sizeOf x < N := by
        simp at hsz ⊢
        omega
      cases xs2 with
      | nil =>
        rw [dumpItemsSep]
        simp only [List.append_nil, List.append_assoc, List.nil_append]
        have hx : pJson (g + 1) (dumpB x ++ 93 :: rest) = .ok (x, 93 :: rest) :=
          (ih (sizeOf x) hszx).1 x le_rfl hxInv g (93 :: rest)
            (by simp [dumpItemsSep] at hfuel; omega) rfl
        exact pArr_step_close (g + 1) _ acc x rest hx
      | cons y ys =>
        rw [dumpItemsSep]
        simp only [List.cons_append, List.append_assoc]
        have hx : pJson (g + 1) (dumpB x ++ (44 :: (dumpB y ++ (dumpItemsSep ys ++
            93 :: rest)))) = .ok (x, 44 :: (dumpB y ++ (dumpItemsSep ys ++ 93 :: rest))) :=
          (ih (sizeOf x) hszx).1 x le_rfl hxInv g _
            (by simp [dumpItemsSep, List.length_append] at hfuel; omega) rfl
        rw [pArr_step_comma (g + 1) _ acc x _ hx]
        have hrecall : dumpB y ++ (dumpItemsSep ys ++ 93 :: rest) =
            dumpItems (y :: ys) ++ 93 :: rest := by
          rw [dumpItems]
          simp
        rw [hrecall]
        have hszys : sizeOf (y :: ys) < N := by
          simp at hsz ⊢
          omega
        have hB := (ih (sizeOf (y :: ys)) hszys).2.1 (y :: ys) le_rfl hxsInv (by simp)
          (acc ++ [x]) g rest
          (by simp [dumpItems, dumpItemsSep, List.length_append] at hfuel ⊢; omega) hrest
        rw [hB]
        simp
  · -- object tails
    intro xs hsz hinvo hne acc fuel rest hfuel hp
    cases xs with
    | nil => exact absurd rfl hne
    | cons e xs2 =>
      obtain ⟨k, v⟩ := e
      have hvInv : Inv v := by
        cases hinvo with
        | cons _ _ _ h _ => exact h
      have hxsInv : InvO xs2 := by
        cases hinvo with
        | cons _ _ _ _ h => exact h
      have hlp := dumpB_length_pos v
      rw [dumpEntries, dumpKVB] at hfuel ⊢
      simp only [List.cons_append, List.append_assoc, List.length_append,
        List.length_cons] at hfuel ⊢
      obtain ⟨g, rfl⟩ : ∃ g, fuel = g + 1 := ⟨fuel - 1, by omega⟩
      have hszv : sizeOf v < N := by
        simp at hsz ⊢
        omega
      have hacc : ∀ p ∈ acc, bytesLt p.1 k = true := pairwise_acc_head acc k v xs2 hp
      cases xs2 with
      | nil =>
        rw [dumpEntriesSep]
        simp only [List.append_nil, List.nil_append]
        have hstr : parseStringBody ((escapeBytes k ++ 34 :: (58 :: (dumpB v ++
            125 :: rest))).length + 1) (escapeBytes k ++ 34 :: (58 :: (dumpB v ++
            125 :: rest))) = .ok (k, 58 :: (dumpB v ++ 125 :: rest)) :=
          parseStringBody_rt k _ _ (by simp [List.length_append]; omega)
        have hval : pJson (g + 1) (dumpB v ++ 125 :: rest) = .ok (v, 125 :: rest) :=
          (ih (sizeOf v) hszv).1 v le_rfl hvInv g _
            (by simp [dumpEntriesSep] at hfuel; omega) rfl
        rw [pObj_step_close (g + 1) _ _ acc k v rest hstr hval]
        rw [insertKV_append k v acc hacc]
      | cons e2 ys =>
        obtain ⟨k2, v2⟩ := e2
        rw [dumpEntriesSep]
        simp only [List.cons_append, List.append_assoc]
        have hstr : parseStringBody ((escapeBytes k ++ 34 :: (58 :: (dumpB v ++
            (44 :: (dumpKVB k2 v2 ++ (dumpEntriesSep ys ++ 125 :: rest)))))).length + 1)
            (escapeBytes k ++ 34 :: (58 :: (dumpB v ++
            (44 :: (dumpKVB k2 v2 ++ (dumpEntriesSep ys ++ 125 :: rest)))))) =
            .ok (k, 58 :: (dumpB v ++ (44 :: (dumpKVB k2 v2 ++
              (dumpEntriesSep ys ++ 125 :: rest))))) :=
          parseStringBody_rt k _ _ (by simp [List.length_append]; omega)
        have hval : pJson (g + 1) (dumpB v ++ (44 :: (dumpKVB k2 v2 ++
            (dumpEntriesSep ys ++ 125 :: rest)))) = .ok (v, 44 :: (dumpKVB k2 v2 ++
            (dumpEntriesSep ys ++ 125 :: rest))) := by
          refine (ih (sizeOf v) hszv).1 v le_rfl hvInv g _ ?_ rfl
          simp [dumpEntriesSep, dumpKVB, List.length_append] at hfuel
          omega
        rw [pObj_step_comma (g + 1) _ _ acc k v _ hstr hval]
        have hskip2 : skipWs (dumpKVB k2 v2 ++ (dumpEntriesSep ys ++ 125 :: rest)) =
            dumpKVB k2 v2 ++ (dumpEntriesSep ys ++ 125 :: rest) := by
          rw [dumpKVB]
          exact skipWs_nonws 34 _ rfl
        rw [hskip2, insertKV_append k v acc hacc]
        have hrecall : dumpKVB k2 v2 ++ (dumpEntriesSep ys ++ 125 :: rest) =
            dumpEntries ((k2, v2) :: ys) ++ 125 :: rest := by
          rw [dumpEntries]
          simp
        rw [hrecall]
        have hszys : sizeOf ((k2, v2) :: ys) < N := by
          simp at hsz ⊢
          omega
        have hC := (ih (sizeOf ((k2, v2) :: ys)) hszys).2.2 ((k2, v2) :: ys) le_rfl
          hxsInv (by simp) (acc ++ [(k, v)]) g rest
          (by simp [dumpEntries, dumpEntriesSep, dumpKVB, List.length_append] at hfuel ⊢
              omega)
          (by simpa using hp)
        rw [hC]
        simp

/-- Helper: re-parsing a serialized invariant value gives it back with no
error. -/
theorem dumpB_rt (v : JsonV) (hinv : Inv v) : pTop (dumpB v) = (v, none) := by
  rw [pTop]
  have h := (rt_all (sizeOf v)).1 v le_rfl hinv (dumpB v).length [] le_rfl rfl
  rw [List.append_nil] at h
  rw [h]
  rfl

/-- C7: the parse/serialize round trip.  For every document the parser
accepts, serializing the parsed value and re-parsing it succeeds and
yields a value equal under the comparator equality (`==`) to the value
parsed directly, even though the serialized text may differ from the
original document. -/
theorem claim_C7 (D : List Nat) (v : JsonV) (h : pTop D = (v, none)) :
    ∃ v2, pTop (dumpB v) = (v2, none) ∧ jeq v2 v = true := by
  have hinv := pTop_inv D v h
  exact ⟨v, dumpB_rt v hinv, jeq_refl v⟩

/-- C7 witness: the round trip at the concrete document `[true]`. -/
theorem claim_C7_witness :
    ∃ v2, pTop (dumpB (jarray [jbool true])) = (v2, none) ∧
      jeq v2 (jarray [jbool true]) = true :=
  claim_C7 (bytes "[true]") (jarray [jbool true]) rfl

end Json11
